import Mathlib

/-!
# Verification of EpisodeRenamer (`src/rename.py`)

A shallow embedding of the core renaming logic of the EpisodeRenamer
repository, together with proofs settling the specification claims.

Strings are modelled as `List Char` internally (with `String` wrappers at the
boundaries).  Python regular-expression searches are embedded as explicit
leftmost-match, greedy/lazy backtracking scanners specialised to the concrete
patterns that occur in the source.  The filesystem touched by the rename
executor and the undo engine is modelled as a finite association list from
absolute path strings to abstract file identities; `shutil.move` becomes
"erase source, insert (overwrite) destination".

Python-specific conventions reproduced here:
* `str.lower` / `str.isdigit` are modelled on the ASCII repertoire that the
  program manipulates (`Char.toLower`, `Char.isDigit`);
* `os.path` functions follow the POSIX (`posixpath`) definitions;
* `os.path.abspath` is modelled as the identity, since every path handled by
  the executor and the undo engine in scope is already absolute.
-/

namespace EpisodeRenamer

/-! ## Basic character and string helpers mirroring Python primitives -/

/-- `str.lower()` on one character (ASCII case mapping). -/
def pyLowerChar (c : Char) : Char := c.toLower

/-- Python regex `\d` (ASCII digits for the filenames in scope). -/
def isAsciiDigit (c : Char) : Bool := c.isDigit

/-- Python `str.isdigit()`: nonempty and every character a digit. -/
def pyIsDigit (l : List Char) : Bool := !l.isEmpty && l.all isAsciiDigit

/-- Python `int(...)` on a string of digits. -/
def digitsToNat (l : List Char) : Nat :=
  l.foldl (fun a c => a * 10 + (c.toNat - '0'.toNat)) 0

/-- Python whitespace class `\s` (also the default `str.strip()` set). -/
def wsChars : List Char := [' ', '\t', '\n', '\r', '\x0b', '\x0c']

def isWsChar (c : Char) : Bool := wsChars.contains c

/-- Python `str.strip(chars)`: drop characters of `set` from both ends. -/
def pyStripChars (set : List Char) (l : List Char) : List Char :=
  ((l.dropWhile (set.contains ·)).reverse.dropWhile (set.contains ·)).reverse

/-- Python `str.lstrip(chars)`. -/
def pyLstripChars (set : List Char) (l : List Char) : List Char :=
  l.dropWhile (set.contains ·)

/-- Python `\w` (word character).  The program's filenames are ASCII plus CJK
ideographs; all non-ASCII code points appearing in scope are Unicode word
characters, so they are treated as such. -/
def isWordChar (c : Char) : Bool := c.isAlphanum || c == '_' || 127 < c.toNat

/-! ## `os.path` helpers (POSIX semantics) -/

/-- Index of the last `/` in the string, if any. -/
def lastIdxOf (ch : Char) (l : List Char) : Option Nat :=
  match l.reverse.findIdx? (· == ch) with
  | none => none
  | some j => some (l.length - 1 - j)

/-- `os.path.basename`: the part after the last `/`. -/
def basenameL : List Char → List Char :=
  go []
where
  go (acc : List Char) : List Char → List Char
    | [] => acc.reverse
    | c :: t => if c = '/' then go [] t else go (c :: acc) t

/-- `os.path.dirname` (posixpath): everything up to the last `/`, with
trailing slashes stripped unless the head is all slashes. -/
def pyDirname (l : List Char) : List Char :=
  match lastIdxOf '/' l with
  | none => []
  | some i =>
    let head := l.take (i + 1)
    if head.all (· = '/') then head
    else (head.reverse.dropWhile (· = '/')).reverse

/-- `os.path.join a b` (posixpath, two arguments). -/
def pyJoin (a b : List Char) : List Char :=
  if b.head? = some '/' then b
  else if a = [] ∨ a.getLast? = some '/' then a ++ b
  else a ++ '/' :: b

/-- `os.path.splitext` (posixpath): split at the last dot of the basename,
unless every character before it in the basename is a dot. -/
def pySplitext (l : List Char) : List Char × List Char :=
  let sepIdx : Option Nat := lastIdxOf '/' l
  let dotIdx : Option Nat := lastIdxOf '.' l
  match dotIdx with
  | none => (l, [])
  | some di =>
    let start := match sepIdx with | none => 0 | some si => si + 1
    if start ≤ di then
      -- the basename region before the dot must contain a non-dot character
      if ((l.drop start).take (di - start)).any (· ≠ '.') then
        (l.take di, l.drop di)
      else (l, [])
    else (l, [])

def basenameStr (s : String) : String := (basenameL s.data).asString

/-! ## `natural_key` (src/rename.py lines 54–62) -/

/-- An element of a natural-sort key: a lower-cased non-digit run, or the
integer value of a digit run (`int(p)` / `p.lower()` in the source). -/
inductive NKElem where
  | str : List Char → NKElem
  | num : Nat → NKElem
deriving DecidableEq, Repr

/-- `re.split(r'(\d+)', s)`: the alternating non-digit parts and captured
digit groups, including the empty boundary parts CPython produces.
`ne` is the pending non-digit run (reversed), `dg` the pending digit run
(reversed). -/
def reSplitDigitsAux : List Char → List Char → List Char → List (List Char)
  | ne, dg, [] => if dg.isEmpty then [ne.reverse] else [ne.reverse, dg.reverse, []]
  | ne, dg, c :: rest =>
    if isAsciiDigit c then reSplitDigitsAux ne (c :: dg) rest
    else if dg.isEmpty then reSplitDigitsAux (c :: ne) dg rest
    else ne.reverse :: dg.reverse :: reSplitDigitsAux [c] [] rest

def reSplitDigits (l : List Char) : List (List Char) := reSplitDigitsAux [] [] l

/-- The per-part conversion in `natural_key`'s loop. -/
def nkConv (p : List Char) : NKElem :=
  if pyIsDigit p then .num (digitsToNat p) else .str (p.map pyLowerChar)

/-- `natural_key` (src/rename.py lines 54–62). -/
def natural_key (s : String) : List NKElem :=
  (reSplitDigits s.data).map nkConv

/-- Python `<` on strings compares code points lexicographically. -/
def cmpChar (a b : Char) : Ordering := compare a.val b.val

def cmpCharList : List Char → List Char → Ordering
  | [], [] => .eq
  | [], _ :: _ => .lt
  | _ :: _, [] => .gt
  | a :: as, b :: bs =>
    match cmpChar a b with
    | .eq => cmpCharList as bs
    | o => o

/-- Python comparison of two key elements: `none` models the `TypeError`
raised when an `int` is compared against a `str`. -/
def cmpNKElem : NKElem → NKElem → Option Ordering
  | .num a, .num b => some (compare a b)
  | .str a, .str b => some (cmpCharList a b)
  | _, _ => none

/-- Python list comparison, element-wise, shorter list first on exhaustion;
`none` models a `TypeError` on a mismatched element pair. -/
def cmpKey : List NKElem → List NKElem → Option Ordering
  | [], [] => some .eq
  | [], _ :: _ => some .lt
  | _ :: _, [] => some .gt
  | a :: as, b :: bs =>
    match cmpNKElem a b with
    | some .eq => cmpKey as bs
    | some o => some o
    | none => none

/-- `key a ≤ key b` for sorting; a `TypeError` (`none`) never occurs on
natural keys (proved below). -/
def nkLe (a b : List NKElem) : Bool :=
  match cmpKey a b with
  | some .gt => false
  | _ => true

/-- Stable insertion used to model CPython's stable `sorted`: a new element
is placed after every existing element that is `≤` it. -/
def pyInsertBy (le : α → α → Bool) (x : α) : List α → List α
  | [] => [x]
  | y :: ys => if le y x then y :: pyInsertBy le x ys else x :: y :: ys

/-- Python `sorted(l)` with a (total) `≤` test, as a stable sort. -/
def pySorted (le : α → α → Bool) (l : List α) : List α :=
  l.foldl (fun acc x => pyInsertBy le x acc) []

/-- `sorted(files, key=lambda p: natural_key(os.path.basename(p)))`
(the scan sort, src/rename.py line 562 / 584). -/
def sortByNaturalKey (files : List String) : List String :=
  pySorted
    (fun a b => nkLe (natural_key (basenameStr a)) (natural_key (basenameStr b)))
    files

/-! ## The episode-info parser (src/rename.py lines 70–171)

Each `re.search` of the source is embedded as a leftmost-match scanner: the
pattern is attempted at every position from the left, and within one position
alternatives are tried in the regex engine's backtracking order (greedy
quantifiers longest-first, lazy quantifiers shortest-first).  A matcher takes
the input suffix at the attempted position and returns the payload together
with the unconsumed remainder. -/

/-- Try a matcher at each position from the left; on success return the
payload and the match's end index (Python `m.end()`). -/
def pySearchAux (m : List Char → Option (α × List Char)) (total : Nat) :
    List Char → Option (α × Nat)
  | [] =>
    match m [] with
    | some (a, rest) => some (a, total - rest.length)
    | none => none
  | c :: t =>
    match m (c :: t) with
    | some (a, rest) => some (a, total - rest.length)
    | none => pySearchAux m total t

def pySearchEnd (m : List Char → Option (α × List Char)) (l : List Char) :
    Option (α × Nat) :=
  pySearchAux m l.length l

/-- Greedy `\d{1,maxLen}` followed by continuation `fin` (digit group,
remainder): candidate lengths are tried longest-first. -/
def greedyDigitsAux (fin : List Char → List Char → Option α)
    (run l : List Char) : Nat → Option α
  | 0 => none
  | j + 1 => fin (run.take (j + 1)) (l.drop (j + 1)) <|> greedyDigitsAux fin run l j

def greedyDigits (maxLen : Nat) (fin : List Char → List Char → Option α)
    (l : List Char) : Option α :=
  let run := (l.takeWhile isAsciiDigit).take maxLen
  greedyDigitsAux fin run l run.length

/-- The regex class `[ ._-]` appearing in the parser's patterns. -/
def sepSet1 : List Char := [' ', '.', '_', '-']

/-- `[ ._-]?` (greedy: try consuming one separator first). -/
def matchSepOpt (after : List Char → Option α) : List Char → Option α
  | [] => after []
  | c :: t =>
    if sepSet1.contains c then after t <|> after (c :: t) else after (c :: t)

/-- A lazy class repetition `[…]*?`: try the continuation first, then consume
one more class character. -/
def lazyClass (cl : Char → Bool) (after : List Char → Option α) :
    List Char → Option α
  | [] => after []
  | c :: t => after (c :: t) <|> (if cl c then lazyClass cl after t else none)

/-- Lazy `.*?` (`.` does not match a newline). -/
def lazyGap (after : List Char → Option α) : List Char → Option α :=
  lazyClass (fun c => c != '\n') after

/-- Case-sensitive literal at the head; returns the remainder. -/
def stripLit : List Char → List Char → Option (List Char)
  | [], l => some l
  | _ :: _, [] => none
  | w :: ws, c :: cs => if c = w then stripLit ws cs else none

/-- Case-insensitive literal at the head (`word` given lower-case). -/
def stripLitCI : List Char → List Char → Option (List Char)
  | [], l => some l
  | _ :: _, [] => none
  | w :: ws, c :: cs => if pyLowerChar c = w then stripLitCI ws cs else none

/-- Rule 1: `[sS](\d{1,2})[ ._-]?[eE](\d{1,3})` (line 109). -/
def matchR1 : List Char → Option ((Nat × Nat) × List Char)
  | [] => none
  | c :: t =>
    if c = 's' ∨ c = 'S' then
      greedyDigits 2 (fun sd r =>
        matchSepOpt (fun r2 =>
          match r2 with
          | e :: r3 =>
            if e = 'e' ∨ e = 'E' then
              greedyDigits 3 (fun ed r4 =>
                some ((digitsToNat sd, digitsToNat ed), r4)) r3
            else none
          | [] => none) r) t
    else none

/-- Rule 2: `(\d{1,2})[xX](\d{1,3})` (line 117). -/
def matchR2 (l : List Char) : Option ((Nat × Nat) × List Char) :=
  greedyDigits 2 (fun sd r =>
    match r with
    | x :: r2 =>
      if x = 'x' ∨ x = 'X' then
        greedyDigits 3 (fun ed r3 =>
          some ((digitsToNat sd, digitsToNat ed), r3)) r2
      else none
    | [] => none) l

/-- Rule 3: `[sS]eason[ ._-]*?(\d{1,2}).*?[eE]p(?:isode)?[ ._-]*?(\d{1,3})`
with `re.IGNORECASE` (line 125). -/
def matchR3 (l : List Char) : Option ((Nat × Nat) × List Char) :=
  match stripLitCI "season".data l with
  | none => none
  | some r1 =>
    lazyClass (sepSet1.contains ·) (fun r2 =>
      greedyDigits 2 (fun sd r3 =>
        lazyGap (fun r4 =>
          match r4 with
          | e :: r5 =>
            if e = 'e' ∨ e = 'E' then
              match r5 with
              | p :: r6 =>
                if p = 'p' ∨ p = 'P' then
                  let cont := fun rr =>
                    lazyClass (sepSet1.contains ·) (fun r7 =>
                      greedyDigits 3 (fun ed r8 =>
                        some ((digitsToNat sd, digitsToNat ed), r8)) r7) rr
                  (match stripLitCI "isode".data r6 with
                   | some r7 => cont r7
                   | none => none) <|> cont r6
                else none
              | [] => none
            else none
          | [] => none) r3) r2) r1

/-- Rule 4 (season part): `第\s*(\d{1,2})\s*季` (line 132).  The greedy `\s*`
runs are forced: whitespace and the following required character classes are
disjoint, so the whole whitespace run is consumed. -/
def matchDiSeason : List Char → Option (Nat × List Char)
  | [] => none
  | c :: t =>
    if c = '第' then
      greedyDigits 2 (fun sd r =>
        match r.dropWhile isWsChar with
        | g :: rr => if g = '季' then some (digitsToNat sd, rr) else none
        | [] => none) (t.dropWhile isWsChar)
    else none

/-- Rules 4/5 (episode part): `第\s*(\d{1,3})\s*[集话回]` (lines 135/144). -/
def matchDiEpisode : List Char → Option (Nat × List Char)
  | [] => none
  | c :: t =>
    if c = '第' then
      greedyDigits 3 (fun ed r =>
        match r.dropWhile isWsChar with
        | g :: rr =>
          if g = '集' ∨ g = '话' ∨ g = '回' then some (digitsToNat ed, rr) else none
        | [] => none) (t.dropWhile isWsChar)
    else none

/-- Rule 6: `[eE]pisode[ ._-]*?(\d{1,3})` (line 151); only the first letter is
case-insensitive in the source pattern. -/
def matchR6 : List Char → Option (Nat × List Char)
  | [] => none
  | c :: t =>
    if c = 'e' ∨ c = 'E' then
      match stripLit "pisode".data t with
      | some r =>
        lazyClass (sepSet1.contains ·) (fun r2 =>
          greedyDigits 3 (fun ed r3 => some (digitsToNat ed, r3)) r2) r
      | none => none
    else none

/-- Maximal runs of word characters of the input. -/
def splitWordRunsAux : Option (List Char) → List Char → List (List Char)
  | pending, [] =>
    (match pending with
     | some cur => [cur.reverse]
     | none => [])
  | pending, c :: rest =>
    if isWordChar c then splitWordRunsAux (some (c :: pending.getD [])) rest
    else
      match pending with
      | some cur => cur.reverse :: splitWordRunsAux none rest
      | none => splitWordRunsAux none rest

def splitWordRuns (l : List Char) : List (List Char) := splitWordRunsAux none l

/-- `re.findall(r'\b(\d{1,3})\b', name)` (line 158): a standalone 1–3 digit
token is a maximal word-character run made of 1–3 digits. -/
def standaloneNums (l : List Char) : List (List Char) :=
  (splitWordRuns l).filter (fun r => pyIsDigit r && decide (r.length ≤ 3))

def boundaryOkBefore : Option Char → Bool
  | none => true
  | some c => !isWordChar c

def boundaryOkAfter : List Char → Bool
  | [] => true
  | c :: _ => !isWordChar c

/-- `re.search(r'\b' + re.escape(w) + r'\b', name)` for an all-digit literal
`w`: end index of the leftmost occurrence of `w` bounded by word boundaries
(line 163). -/
def searchBoundAux (w : List Char) : Option Char → Nat → List Char → Option Nat
  | prev, pos, [] =>
    if boundaryOkBefore prev && w.isPrefixOf ([] : List Char) then
      some (pos + w.length)
    else none
  | prev, pos, c :: t =>
    if boundaryOkBefore prev && w.isPrefixOf (c :: t) &&
        boundaryOkAfter ((c :: t).drop w.length) then
      some (pos + w.length)
    else searchBoundAux w (some c) (pos + 1) t

def searchBound (w l : List Char) : Option Nat := searchBoundAux w none 0 l

/-- The lowered `_STOP_TOKENS` set (lines 43–49); `"HEVC"` lowers onto the
already-present `"hevc"`. -/
def stopTokensLow : List (List Char) :=
  ["2160p".data, "1080p".data, "720p".data, "480p".data, "web-dl".data,
   "web".data, "webrip".data, "web-dlrip".data, "web-dl2".data, "bluray".data,
   "brrip".data, "bdrip".data, "hdrip".data, "hdtv".data, "dvdrip".data,
   "x264".data, "x265".data, "h264".data, "h265".data, "hevc".data, "avc".data,
   "aac".data, "ddp".data, "ddp5.1".data, "dd+".data, "atmos".data,
   "10bit".data, "8bit".data, "proper".data, "repack".data, "extended".data,
   "unrated".data]

/-- `re.fullmatch(r'\d{3,4}p', tok.lower())`. -/
def isResTok (low : List Char) : Bool :=
  let ds := low.takeWhile isAsciiDigit
  decide (3 ≤ ds.length) && decide (ds.length ≤ 4) && low.drop ds.length == ['p']

/-- `re.fullmatch(r'\d+\.\d+', tok)` (audio channel, e.g. `5.1`). -/
def isChanTok (tok : List Char) : Bool :=
  let a := tok.takeWhile isAsciiDigit
  !a.isEmpty &&
    (match tok.drop a.length with
     | '.' :: b => pyIsDigit b
     | _ => false)

/-- `re.fullmatch(r'\[.*\]|\(.*\)', tok)`; tokens never contain a newline
(they are produced by splitting on a class containing `\s`), so `.*` imposes
no further restriction. -/
def isBracketTok (tok : List Char) : Bool :=
  decide (2 ≤ tok.length) &&
    ((tok.head? == some '[' && tok.getLast? == some ']') ||
     (tok.head? == some '(' && tok.getLast? == some ')'))

/-- The token separator class `[._\-\s]+` used by `_extract_after_pos`. -/
def isExtractSep (c : Char) : Bool := sepSet1.contains c || isWsChar c

/-- `re.split('[cl]+', l)`: maximal non-class runs, with the empty boundary
parts CPython produces.  `pending = none` means a separator run is open. -/
def reSplitClassAux (cl : Char → Bool) : Option (List Char) → List Char → List (List Char)
  | pending, [] => [(pending.getD []).reverse]
  | pending, c :: rest =>
    if cl c then
      match pending with
      | some cur => cur.reverse :: reSplitClassAux cl none rest
      | none => reSplitClassAux cl none rest
    else reSplitClassAux cl (some (c :: pending.getD [])) rest

def reSplitClass (cl : Char → Bool) (l : List Char) : List (List Char) :=
  reSplitClassAux cl (some []) l

/-- The token loop of `_extract_after_pos` (lines 88–102): skip empties,
stop at stop-words / resolution / audio-channel tokens, skip bracketed
tokens, keep the rest. -/
def collectTokens : List (List Char) → List (List Char)
  | [] => []
  | tok :: rest =>
    if tok.isEmpty then collectTokens rest
    else if stopTokensLow.contains (tok.map pyLowerChar) then []
    else if isResTok (tok.map pyLowerChar) then []
    else if isChanTok tok then []
    else if isBracketTok tok then collectTokens rest
    else tok :: collectTokens rest

/-- `".".join(out_tokens)`. -/
def joinDots : List (List Char) → List Char
  | [] => []
  | [t] => t
  | t :: rest => t ++ '.' :: joinDots rest

/-- `_extract_after_pos` (src/rename.py lines 81–106). -/
def extract_after_pos (s : List Char) (pos : Nat) : Option (List Char) :=
  let rem := pyStripChars [' ', '.', '_', '-'] (s.drop pos)
  if rem.isEmpty then none
  else
    let out := collectTokens (reSplitClass isExtractSep rem)
    if out.isEmpty then none else some (joinDots out)

/-- `parse_episode_info` (src/rename.py lines 70–171).  The source also binds
`low = name.lower()`, which is never used afterwards. -/
def parse_episode_info (filename : String) :
    Option Nat × Option Nat × Option String :=
  let name := (pySplitext (basenameL filename.data)).1
  let extractAt := fun (endPos : Nat) =>
    (extract_after_pos name endPos).map List.asString
  match pySearchEnd matchR1 name with
  | some ((s, e), endPos) => (some s, some e, extractAt endPos)
  | none =>
  match pySearchEnd matchR2 name with
  | some ((s, e), endPos) => (some s, some e, extractAt endPos)
  | none =>
  match pySearchEnd matchR3 name with
  | some ((s, e), endPos) => (some s, some e, extractAt endPos)
  | none =>
  match pySearchEnd matchDiSeason name with
  | some (s, _) =>
    (match pySearchEnd matchDiEpisode name with
     | some (e, end2) => (some s, some e, extractAt end2)
     | none => (some s, none, none))
  | none =>
  match pySearchEnd matchDiEpisode name with
  | some (e, end2) => (none, some e, extractAt end2)
  | none =>
  match pySearchEnd matchR6 name with
  | some (e, end2) => (none, some e, extractAt end2)
  | none =>
  match standaloneNums name with
  | [] => (none, none, none)
  | n0 :: _ =>
    match searchBound n0 name with
    | some endP => (none, some (digitsToNat n0), extractAt endP)
    | none => (none, some (digitsToNat n0), none)

/-! ## The name template formatter (src/rename.py lines 176–186)

`format_template` delegates to Python's `str.format(**context)` inside a
`try`, falling back to literal substring replacement on any exception.
`str.format` is modelled here on the fragment the program's templates use:
literal text, `{{`/`}}` escapes, and named fields among
`title/season/episode/ep/ext/orig` with an optional width /
zero-padding format spec.  Any other construct (unknown or empty field name,
attribute or conversion syntax, nested or unbalanced braces, a format spec
outside the modelled forms — all of which raise in CPython) is mapped to
`none`, i.e. to the exception path. -/

/-- Python `str.replace(old, new)` (all occurrences); the `old` strings used
by the program are the nonempty literal placeholder names. -/
def replaceAllGo (old new : List Char) : Nat → List Char → List Char
  | 0, l => l
  | _ + 1, [] => []
  | fuel + 1, c :: t =>
    if old.isPrefixOf (c :: t) then
      new ++ replaceAllGo old new fuel ((c :: t).drop old.length)
    else c :: replaceAllGo old new fuel t

def replaceAll (l old new : List Char) : List Char :=
  if old.isEmpty then l else replaceAllGo old new (l.length + 1) l

/-- Python `str.replace(old, new, 1)` (first occurrence only). -/
def replaceFirstGo (old new : List Char) : List Char → List Char
  | [] => []
  | c :: t =>
    if old.isPrefixOf (c :: t) then new ++ (c :: t).drop old.length
    else c :: replaceFirstGo old new t

def replaceFirst (l old new : List Char) : List Char :=
  if old.isEmpty then new ++ l else replaceFirstGo old new l

inductive FmtPiece where
  | lit : List Char → FmtPiece
  | fld : List Char → List Char → FmtPiece
deriving Repr, DecidableEq

/-- Split a replacement field at its first `:` into name and format spec. -/
def splitColon (l : List Char) : List Char × List Char :=
  let nm := l.takeWhile (· ≠ ':')
  match l.drop nm.length with
  | ':' :: sp => (nm, sp)
  | _ => (nm, [])

/-- Parse a format string into pieces; `none` models a `ValueError` from
unbalanced braces or unsupported field syntax.  Fuel is one more than the
input length; every step consumes at least one character. -/
def parseFmtAux : Nat → List Char → Option (List FmtPiece)
  | 0, _ => none
  | _ + 1, [] => some []
  | fuel + 1, c :: t =>
    if c = '\x7b' then
      match t with
      | c2 :: t2 =>
        if c2 = '\x7b' then (parseFmtAux fuel t2).map (FmtPiece.lit ['\x7b'] :: ·)
        else
          let inner := t.takeWhile (fun x => x ≠ '\x7d' ∧ x ≠ '\x7b')
          match t.drop inner.length with
          | '\x7d' :: rest =>
            if inner.contains '!' then none
            else
              (parseFmtAux fuel rest).map
                (FmtPiece.fld (splitColon inner).1 (splitColon inner).2 :: ·)
          | _ => none
      | [] => none
    else if c = '\x7d' then
      match t with
      | c2 :: t2 =>
        if c2 = '\x7d' then (parseFmtAux fuel t2).map (FmtPiece.lit ['\x7d'] :: ·)
        else none
      | [] => none
    else (parseFmtAux fuel t).map (FmtPiece.lit [c] :: ·)

def parseFmt (l : List Char) : Option (List FmtPiece) := parseFmtAux (l.length + 1) l

def spacePadLeft (w : Nat) (l : List Char) : List Char :=
  List.replicate (w - l.length) ' ' ++ l

def spacePadRight (w : Nat) (l : List Char) : List Char :=
  l ++ List.replicate (w - l.length) ' '

/-- CPython `format(v, '0N')`: zeros are inserted after the sign. -/
def zeroPadInt (w : Nat) (v : Int) : List Char :=
  let body := (toString v.natAbs).data
  if v < 0 then '-' :: (List.replicate (w - 1 - body.length) '0' ++ body)
  else List.replicate (w - body.length) '0' ++ body

/-- Format an integer field with spec `""`, `"N"` (space pad, right aligned)
or `"0N"` (zero pad); other specs → exception (`none`). -/
def fmtIntSpec (spec : List Char) (v : Int) : Option (List Char) :=
  if spec.isEmpty then some (toString v).data
  else if spec.all isAsciiDigit then
    if spec.head? = some '0' then some (zeroPadInt (digitsToNat spec) v)
    else some (spacePadLeft (digitsToNat spec) (toString v).data)
  else none

/-- Format a string field: spec `""` or a width (left aligned, fill `' '`,
or fill `'0'` when the width carries CPython's leading-zero flag). -/
def fmtStrSpec (spec : List Char) (s : List Char) : Option (List Char) :=
  if spec.isEmpty then some s
  else if spec.all isAsciiDigit then
    if spec.head? = some '0' then
      some (s ++ List.replicate (digitsToNat spec - s.length) '0')
    else some (spacePadRight (digitsToNat spec) s)
  else none

/-- Resolve one replacement field against the `context` dict of
`format_template` (`ext` is passed already `lstrip`ped of dots). -/
def renderField (title : List Char) (s e : Int) (ext orig : List Char)
    (nm spec : List Char) : Option (List Char) :=
  if nm = "title".data then fmtStrSpec spec title
  else if nm = "season".data then fmtIntSpec spec s
  else if nm = "episode".data then fmtIntSpec spec e
  else if nm = "ep".data then fmtIntSpec spec e
  else if nm = "ext".data then fmtStrSpec spec ext
  else if nm = "orig".data then fmtStrSpec spec orig
  else none

def renderPieces (title : List Char) (s e : Int) (ext orig : List Char) :
    List FmtPiece → Option (List Char)
  | [] => some []
  | .lit x :: rest => (renderPieces title s e ext orig rest).map (x ++ ·)
  | .fld nm sp :: rest =>
    (renderField title s e ext orig nm sp).bind fun v =>
      (renderPieces title s e ext orig rest).map (v ++ ·)

/-- `template.format(**context)`; `none` is the exception path. -/
def pyFormat (tmpl title : List Char) (s e : Int) (ext orig : List Char) :
    Option (List Char) :=
  (parseFmt tmpl).bind (renderPieces title s e ext orig)

/-- The `except` branch of `format_template` (lines 183–186): literal
replacement of the fixed placeholder names. -/
def fallbackReplace (template title : List Char) (season episode : Option Int)
    (ext orig : List Char) : List Char :=
  let o1 := replaceAll template "\x7btitle\x7d".data title
  let o2 := replaceAll o1 "\x7bext\x7d".data (pyLstripChars ['.'] ext)
  let o3 := replaceAll o2 "\x7borig\x7d".data orig
  let o4 := replaceAll o3 "\x7bseason\x7d".data (toString (season.getD 0)).data
  let o5 := replaceAll o4 "\x7bepisode\x7d".data (toString (episode.getD 0)).data
  replaceAll o5 "\x7bep\x7d".data (toString (episode.getD 0)).data

/-- `format_template` (src/rename.py lines 176–186). -/
def format_template (template title : String) (season episode : Option Int)
    (ext orig : String) : String :=
  let s : Int := season.getD 0
  let e : Int := episode.getD 0
  match pyFormat template.data title.data s e (pyLstripChars ['.'] ext.data) orig.data with
  | some out => out.asString
  | none => (fallbackReplace template.data title.data season episode ext.data orig.data).asString

/-! ## `_apply_padding_to_template` (src/rename.py lines 745–751) -/

/-- The episode marker `[eE](\d{1,})`: a marker letter followed by its
(maximal) digit group. -/
def matchEpMarker : List Char → Option ((Char × List Char) × List Char)
  | [] => none
  | c :: t =>
    if c = 'e' ∨ c = 'E' then
      let d := t.takeWhile isAsciiDigit
      if d.isEmpty then none else some ((c, d), t.drop d.length)
    else none

/-- `num.zfill(pad)` for an all-digit `num`. -/
def zfill (w : Nat) (num : List Char) : List Char :=
  List.replicate (w - num.length) '0' ++ num

/-- `_apply_padding_to_template`: find the first `[eE](\d{1,})` match and, if
its digit group is shorter than `pad`, replace the **first occurrence of that
digit string anywhere in the name** with its zero-filled form. -/
def apply_padding_to_template (newbase : String) (pad : Nat) : String :=
  match pySearchEnd matchEpMarker newbase.data with
  | some ((_, num), _) =>
    if num.length < pad then (replaceFirst newbase.data num (zfill pad num)).asString
    else newbase
  | none => newbase

/-- The substring matched by the first episode marker of a rendered name
(used to state the padding claim). -/
def episodeMarkerOf (s : String) : Option String :=
  (pySearchEnd matchEpMarker s.data).map fun x => (x.1.1 :: x.1.2).asString

/-- Python `int(...)` on a stripped string: optional sign then digits;
`none` models the `ValueError` on anything else. -/
def pyIntOpt (s : String) : Option Int :=
  match pyStripChars wsChars s.data with
  | '-' :: ds => if pyIsDigit ds then some (-(digitsToNat ds : Int)) else none
  | '+' :: ds => if pyIsDigit ds then some ((digitsToNat ds : Int)) else none
  | ds => if pyIsDigit ds then some ((digitsToNat ds : Int)) else none

/-! ## Preview building (src/rename.py lines 571–743)

The UI-independent content of `preview`: sorting, the per-file parse pass,
the numbering-strategy decision, the per-entry season/episode assignment,
rendering through the template formatter, and conflict/unchanged tagging.
The configuration record carries the `tk` variables the method reads. -/

abbrev ParseRes := Option Nat × Option Nat × Option String

structure Config where
  title : String
  season : String
  pad : Nat
  offset : Int
  includeTitle : Bool
  template : String
  sortMethod : String
  conflictSuffix : String
  moveSeasonFolder : Bool
deriving Repr

/-- One element of `preview_list`: `(oldabs, newabs, oldname, newname)`. -/
structure PrevEntry where
  oldabs : String
  newabs : String
  oldname : String
  newname : String
deriving DecidableEq, Repr

/-- `season_val = int(season_input) if season_input.isdigit() else None`
(line 617–618). -/
def seasonVal (cfg : Config) : Option Nat :=
  let si := pyStripChars wsChars cfg.season.data
  if pyIsDigit si then some (digitsToNat si) else none

/-- `title = self.var_title.get().strip() or "Series"` (line 619). -/
def cfgTitle (cfg : Config) : String :=
  let t := pyStripChars wsChars cfg.title.data
  if t.isEmpty then "Series" else t.asString

/-- Sort test for methods `name` and `numeric`: the `numeric` key expression
(line 586) is the same computation as `natural_key` of the basename. -/
def nameLe (a b : String) : Bool :=
  nkLe (natural_key (basenameStr a)) (natural_key (basenameStr b))

/-- Tuple comparison of `guess_key` values (lines 589–593):
`(0, episode, natural_key)` when an episode parsed, else `(1, natural_key)`. -/
def guessCmp (a b : String) : Option Ordering :=
  let ka := natural_key (basenameStr a)
  let kb := natural_key (basenameStr b)
  match (parse_episode_info a).2.1, (parse_episode_info b).2.1 with
  | some ea, some eb =>
    (match compare ea eb with
     | .eq => cmpKey ka kb
     | o => some o)
  | some _, none => some .lt
  | none, some _ => some .gt
  | none, none => cmpKey ka kb

def guessLe (a b : String) : Bool :=
  match guessCmp a b with
  | some .gt => false
  | _ => true

/-- The `method` dispatch of `preview` (lines 581–594). -/
def sortFiles (cfg : Config) (files : List String) : List String :=
  if cfg.sortMethod = "name" then pySorted nameLe files
  else if cfg.sortMethod = "numeric" then pySorted nameLe files
  else if cfg.sortMethod = "guess" then pySorted guessLe files
  else files

/-- `len(parsed_es) >= max(2, len(files)//3)` (lines 603–606). -/
def useParsedNumbers (files : List String) (parsed : List (String × ParseRes)) : Bool :=
  decide (max 2 (files.length / 3) ≤ (parsed.filter (fun x => x.2.2.1.isSome)).length)

/-- `re.fullmatch(r'\d{1,3}', name_no_ext)` (line 612). -/
def isPureNumericName (p : String) : Bool :=
  let nameNoExt := (pySplitext (basenameL p.data)).1
  pyIsDigit nameNoExt && decide (nameNoExt.length ≤ 3)

/-- `pure_numeric_files` (lines 609–613). -/
def pureNumericFiles (parsed : List (String × ParseRes)) : List String :=
  parsed.filterMap fun x => if isPureNumericName x.1 then some x.1 else none

inductive Strategy where
  | trust
  | pureNum
  | fallb
deriving DecidableEq, Repr

/-- The branch taken by `preview`'s `if use_parsed_numbers / elif … / else`
chain (lines 623, 646, 668). -/
def selectedStrategy (cfg : Config) (files0 : List String) : Strategy :=
  let files := sortFiles cfg files0
  let parsed := files.map fun p => (p, parse_episode_info p)
  if useParsedNumbers files parsed then .trust
  else
    let pureFs := pureNumericFiles parsed
    if !pureFs.isEmpty && decide (max 2 (files.length / 3) ≤ pureFs.length) then .pureNum
    else .fallb

/-- The loop variables of one preview-entry computation, just before the
template is rendered: the file, its parse results, and the final season and
episode numbers chosen by the branch. -/
structure Assign where
  path : String
  sAuto : Option Nat
  eAuto : Option Nat
  extra : Option String
  seasonFinal : Int
  ep : Int
deriving DecidableEq, Repr

/-- Sort key of the trust branch (line 625):
`(episode if present else 999999, natural_key(basename))`. -/
def trustLe (x y : String × ParseRes) : Bool :=
  match compare (x.2.2.1.getD 999999) (y.2.2.1.getD 999999) with
  | .lt => true
  | .gt => false
  | .eq =>
    match cmpKey (natural_key (basenameStr x.1)) (natural_key (basenameStr y.1)) with
    | some .gt => false
    | _ => true

/-- Trust-parsed-numbers branch, assignment stage (lines 624–632). -/
def trustAssign (cfg : Config) (parsed : List (String × ParseRes)) : List Assign :=
  (pySorted trustLe parsed).enum.map fun ip =>
    let pr := ip.2.2
    let sf0 := match seasonVal cfg with
      | some n => some n
      | none => pr.1
    let ep : Int := (match pr.2.1 with
      | some e => (e : Int)
      | none => (ip.1 : Int) + 1) + cfg.offset
    ⟨ip.2.1, pr.1, pr.2.1, pr.2.2,
      (match sf0 with | some n => (n : Int) | none => 1), ep⟩

/-- `int(os.path.splitext(os.path.basename(p))[0])` (line 648). -/
def numericNameVal (p : String) : Nat :=
  digitsToNat (pySplitext (basenameL p.data)).1

/-- Sort test of the pure-numeric branch (line 648): by numeric value. -/
def pureNumLe (a b : String) : Bool := decide (numericNameVal a ≤ numericNameVal b)

/-- Pure-numeric-sequence branch, assignment stage (lines 646–667): the pure
numeric files sorted by value get positions `1…n` (+ offset); the remaining
files are appended, each with `len(files_sorted_num) + 1 + offset`.  This
branch has no `extra` append and ignores the parse results. -/
def pureAssign (cfg : Config) (parsed : List (String × ParseRes))
    (pureFs : List String) : List Assign :=
  let sortedNum := pySorted pureNumLe pureFs
  let sf : Int := match seasonVal cfg with
    | some n => (n : Int)
    | none => 1
  let part1 := sortedNum.enum.map fun ip =>
    ⟨ip.2, none, none, none, sf, ((ip.1 : Int) + 1) + cfg.offset⟩
  let others := parsed.filterMap fun x =>
    if pureFs.contains x.1 then none else some x.1
  let part2 := others.map fun p =>
    (⟨p, none, none, none, sf, ((sortedNum.length : Int) + 1) + cfg.offset⟩ : Assign)
  part1 ++ part2

/-- Sequential-fallback branch, assignment stage (lines 669–674). -/
def fallbackAssign (cfg : Config) (parsed : List (String × ParseRes)) : List Assign :=
  parsed.enum.map fun ip =>
    let pr := ip.2.2
    let sf : Int := match seasonVal cfg with
      | some n => (n : Int)
      | none =>
        match pr.1 with
        | some s => (s : Int)
        | none => 1
    let ep : Int := (match pr.2.1 with
      | some e => (e : Int)
      | none => (ip.1 : Int) + 1) + cfg.offset
    ⟨ip.2.1, pr.1, pr.2.1, pr.2.2, sf, ep⟩

def previewAssign (cfg : Config) (files0 : List String) : List Assign :=
  if files0.isEmpty then []
  else
    let files := sortFiles cfg files0
    let parsed := files.map fun p => (p, parse_episode_info p)
    match selectedStrategy cfg files0 with
    | .trust => trustAssign cfg parsed
    | .pureNum => pureAssign cfg parsed (pureNumericFiles parsed)
    | .fallb => fallbackAssign cfg parsed

/-- `re.sub(r'[\\/:*?"<>|]+', '', extra).strip('. ')` (line 639/677). -/
def illegalFsChars : List Char := ['\\', '/', ':', '*', '?', '"', '<', '>', '|']

def sanitizeExtra (extra : List Char) : List Char :=
  pyStripChars ['.', ' '] (extra.filter (fun c => !illegalFsChars.contains c))

/-- Rendering of one preview entry from its assignment (lines 633–645 /
675–682); the pure-numeric branch never has an `extra`, so the shared code
reduces there to its shorter loop body. -/
def renderAssign (cfg : Config) (a : Assign) : PrevEntry :=
  let ext := (pySplitext a.path.data).2.asString
  let base0 := format_template cfg.template (cfgTitle cfg)
    (some a.seasonFinal) (some a.ep) ext (basenameStr a.path)
  let base1 : List Char :=
    match a.extra with
    | some x =>
      if cfg.includeTitle then
        let be := pySplitext base0.data
        let safe := sanitizeExtra x.data
        if safe.isEmpty then base0.data else be.1 ++ '.' :: (safe ++ be.2)
      else base0.data
    | none => base0.data
  let base2 := apply_padding_to_template base1.asString cfg.pad
  let newname := basenameStr base2
  { oldabs := a.path
    newabs := (pyJoin (pyDirname a.path.data) newname.data).asString
    oldname := basenameStr a.path
    newname := newname }

/-- The preview list built by one pass of `preview` (lines 571–682). -/
def previewList (cfg : Config) (files0 : List String) : List PrevEntry :=
  (previewAssign cfg files0).map (renderAssign cfg)

/-! ### Conflict detection (lines 684–712) -/

def strLower (s : String) : String := (s.data.map pyLowerChar).asString

/-- The conflict key `(os.path.dirname(oldabs), newname.lower())`. -/
def entryKey (e : PrevEntry) : String × String :=
  ((pyDirname e.oldabs.data).asString, strLower e.newname)

/-- The first pass over the preview list (lines 685–693): a key already seen
is added to the conflict set.  Set insertion is modelled by consing;
only membership is ever queried. -/
def conflictScan :
    List (String × String) → List (String × String) → List (String × String) →
    List (String × String)
  | [], _, conf => conf
  | k :: rest, seen, conf =>
    if seen.contains k then conflictScan rest seen (k :: conf)
    else conflictScan rest (k :: seen) conf

def buildConflictSet (entries : List PrevEntry) : List (String × String) :=
  conflictScan (entries.map entryKey) [] []

/-- The tag computed for one entry in the display loop (lines 703–712). -/
def tagOf (confSet : List (String × String)) (e : PrevEntry) : String :=
  if confSet.contains (entryKey e) then "conflict"
  else if e.oldname = e.newname then "unchanged"
  else ""

def previewTags (entries : List PrevEntry) : List String :=
  entries.map (tagOf (buildConflictSet entries))

/-! ## The rename executor and the undo engine (lines 766–819, 836–882)

The filesystem is a finite map from absolute paths to abstract file
identities, as an association list.  `shutil.move src dst` erases `src` and
inserts (overwriting) `dst` — POSIX rename overwrites an existing regular
file.  `os.makedirs` is a no-op in this model (directories are implicit),
and `os.path.abspath` is the identity since all paths in scope are absolute. -/

abbrev Fs := List (String × Nat)

def fsLookup : Fs → String → Option Nat
  | [], _ => none
  | (k, v) :: t, x => if k = x then some v else fsLookup t x

def fsContains (fs : Fs) (k : String) : Bool := (fsLookup fs k).isSome

def fsErase (fs : Fs) (k : String) : Fs := fs.filter (fun p => p.1 != k)

def fsInsert (fs : Fs) (k : String) (v : Nat) : Fs := (k, v) :: fsErase fs k

/-- `re.search(r'[sS](\d{1,2})', newname)` (line 783). -/
def matchSx : List Char → Option (Nat × List Char)
  | [] => none
  | c :: t =>
    if c = 's' ∨ c = 'S' then
      greedyDigits 2 (fun sd r => some (digitsToNat sd, r)) t
    else none

/-- `int(season_match.group(1)) if season_match else int(var_season or 1)`
(line 784); `none` is the `ValueError` path of `int`, which skips the entry. -/
def seasonToUse (cfg : Config) (e : PrevEntry) : Option Int :=
  match pySearchEnd matchSx e.newname.data with
  | some (n, _) => some (n : Int)
  | none => if cfg.season = "" then some 1 else pyIntOpt cfg.season

/-- The destination path before conflict suffixing (lines 781–793): the
season folder `S%02d` under the original file's directory when the
season-folder option is on, else `newabs` itself. -/
def baseTarget (cfg : Config) (e : PrevEntry) : Option String :=
  if cfg.moveSeasonFolder then
    (seasonToUse cfg e).map fun n =>
      (pyJoin (pyJoin (pyDirname e.oldabs.data) ('S' :: zeroPadInt 2 n))
        e.newname.data).asString
  else some e.newabs

/-- The `while os.path.exists(t)` suffix loop (lines 798–801).  The fuel
`fs.length + 1` covers the loop's real behaviour: the candidate names for
distinct `i` are distinct and at most `fs.length` paths exist, so the first
free candidate is reached before the fuel runs out. -/
def suffixLoop (fs : Fs) (base sfx ext : List Char) : Nat → Nat → String
  | 0, i => (base ++ sfx ++ (toString i).data ++ ext).asString
  | fuel + 1, i =>
    let t := (base ++ sfx ++ (toString i).data ++ ext).asString
    if fsContains fs t then suffixLoop fs base sfx ext fuel (i + 1) else t

/-- Conflict-suffix resolution (lines 795–802). -/
def conflictFreeTarget (fs : Fs) (sfx target : String) : String :=
  if fsContains fs target then
    let be := pySplitext target.data
    let t0 := (be.1 ++ sfx.data ++ be.2).asString
    if fsContains fs t0 then suffixLoop fs be.1 sfx.data be.2 (fs.length + 1) 1
    else t0
  else target

/-- The move loop of `_execute_task` (lines 779–809): per-entry failures
(`int` on a malformed season, a missing source) skip the entry; each
successful move appends `(oldabs, final target)` to the log. -/
def execGo (cfg : Config) (fs : Fs) : List PrevEntry → Fs × List (String × String)
  | [] => (fs, [])
  | e :: rest =>
    match baseTarget cfg e with
    | none => execGo cfg fs rest
    | some t0 =>
      let target := conflictFreeTarget fs cfg.conflictSuffix t0
      match fsLookup fs e.oldabs with
      | none => execGo cfg fs rest
      | some v =>
        let r := execGo cfg (fsInsert (fsErase fs e.oldabs) target v) rest
        (r.1, (e.oldabs, target) :: r.2)

/-- `_execute_task` on the filesystem model: final filesystem and the rows of
the operation log it writes. -/
def execute_task (cfg : Config) (fs : Fs) (entries : List PrevEntry) :
    Fs × List (String × String) :=
  execGo cfg fs entries

/-- The row loop of `_undo_task` (lines 851–874): the source is whichever of
`new`, `old` exists (preferring `new`); rows whose paths both vanished are
skipped; each successful move appends `(source, target)` to the rollback
log.  The source's `abspath` retry block re-checks the same two paths, since
`abspath` is the identity here. -/
def undoGo (fs : Fs) : List (String × String) → Fs × List (String × String)
  | [] => (fs, [])
  | (old, new) :: rest =>
    let source : Option String :=
      if new != "" && fsContains fs new then some new
      else if old != "" && fsContains fs old then some old
      else none
    match source with
    | none => undoGo fs rest
    | some src =>
      match fsLookup fs src with
      | none => undoGo fs rest
      | some v =>
        let r := undoGo (fsInsert (fsErase fs src) old v) rest
        (r.1, (src, old) :: r.2)

/-- `_undo_task` on the filesystem model: final filesystem and rollback-log
rows, given the data rows of an operation log. -/
def undo_task (fs : Fs) (rows : List (String × String)) :
    Fs × List (String × String) :=
  undoGo fs rows

/-! ## Properties of `natural_key` (claim C10) -/

/-- The shape of a natural-sort key: string and integer elements alternate,
beginning (and ending) with a string element. -/
inductive KeyAlt : List NKElem → Prop where
  | single (s : List Char) : KeyAlt [.str s]
  | cons (s : List Char) (n : Nat) (rest : List NKElem) :
      KeyAlt rest → KeyAlt (.str s :: .num n :: rest)

lemma pyIsDigit_eq_false_of_all_not {l : List Char}
    (h : ∀ c ∈ l, ¬ isAsciiDigit c = true) : pyIsDigit l = false := by
  cases l with
  | nil => rfl
  | cons c t =>
    have hc : isAsciiDigit c = false := by
      simpa using h c (List.mem_cons_self _ _)
    simp [pyIsDigit, hc]

lemma pyIsDigit_eq_true_of_all {l : List Char} (hne : l ≠ [])
    (h : ∀ c ∈ l, isAsciiDigit c = true) : pyIsDigit l = true := by
  simp only [pyIsDigit, Bool.and_eq_true, List.all_eq_true]
  exact ⟨by simpa using hne, h⟩

lemma nkConv_str_of_all_not {l : List Char}
    (h : ∀ c ∈ l, ¬ isAsciiDigit c = true) :
    nkConv l = .str (l.map pyLowerChar) := by
  simp [nkConv, pyIsDigit_eq_false_of_all_not h]

lemma keyAlt_reSplitDigitsAux :
    ∀ (rest ne dg : List Char),
      (∀ c ∈ ne, ¬ isAsciiDigit c = true) → (∀ c ∈ dg, isAsciiDigit c = true) →
      KeyAlt ((reSplitDigitsAux ne dg rest).map nkConv) := by
  intro rest
  induction rest with
  | nil =>
    intro ne dg hne hdg
    by_cases hdgE : dg = []
    · subst hdgE
      simp only [reSplitDigitsAux, List.isEmpty_nil, if_true, List.map_cons, List.map_nil]
      rw [nkConv_str_of_all_not (by simpa using hne)]
      exact KeyAlt.single _
    · have hE : dg.isEmpty = false := by simpa using hdgE
      simp only [reSplitDigitsAux, hE, Bool.false_eq_true, if_false,
        List.map_cons, List.map_nil]
      rw [nkConv_str_of_all_not (by simpa using hne)]
      have hd : pyIsDigit dg.reverse = true :=
        pyIsDigit_eq_true_of_all (by simpa using hdgE) (by simpa using hdg)
      have hnum : nkConv dg.reverse = .num (digitsToNat dg.reverse) := by
        simp [nkConv, hd]
      rw [hnum, nkConv_str_of_all_not (by simp)]
      exact KeyAlt.cons _ _ _ (KeyAlt.single _)
  | cons c t ih =>
    intro ne dg hne hdg
    by_cases hc : isAsciiDigit c = true
    · simp only [reSplitDigitsAux, hc, if_true]
      exact ih ne (c :: dg) hne (by
        intro x hx
        rcases List.mem_cons.mp hx with rfl | hx
        · exact hc
        · exact hdg x hx)
    · simp only [reSplitDigitsAux, hc, Bool.false_eq_true, if_false]
      by_cases hdgE : dg = []
      · subst hdgE
        simp only [List.isEmpty_nil, if_true]
        exact ih (c :: ne) [] (by
          intro x hx
          rcases List.mem_cons.mp hx with rfl | hx
          · exact hc
          · exact hne x hx) (by simp)
      · have hdgE' : dg.isEmpty = false := by simpa using hdgE
        simp only [hdgE', Bool.false_eq_true, if_false, List.map_cons]
        rw [nkConv_str_of_all_not (by simpa using hne)]
        have hd : pyIsDigit dg.reverse = true :=
          pyIsDigit_eq_true_of_all (by simpa using hdgE) (by simpa using hdg)
        have hnum : nkConv dg.reverse = .num (digitsToNat dg.reverse) := by
          simp [nkConv, hd]
        rw [hnum]
        exact KeyAlt.cons _ _ _ (ih [c] [] (by
          intro x hx
          rcases List.mem_cons.mp hx with rfl | hx
          · exact hc
          · simp at hx) (by simp))

lemma keyAlt_natural_key (s : String) : KeyAlt (natural_key s) :=
  keyAlt_reSplitDigitsAux s.data [] [] (by simp) (by simp)

lemma cmpKey_ne_none_of_alt :
    ∀ {a : List NKElem}, KeyAlt a → ∀ {b : List NKElem}, KeyAlt b →
      cmpKey a b ≠ none := by
  intro a ha
  induction ha with
  | single s =>
    intro b hb
    cases hb with
    | single s' =>
      rcases h : cmpCharList s s' with _ | _ | _ <;> simp [cmpKey, cmpNKElem, h]
    | cons s' n' rest' hrest' =>
      rcases h : cmpCharList s s' with _ | _ | _ <;> simp [cmpKey, cmpNKElem, h]
  | cons s n rest hrest ih =>
    intro b hb
    cases hb with
    | single s' =>
      rcases h : cmpCharList s s' with _ | _ | _ <;> simp [cmpKey, cmpNKElem, h]
    | cons s' n' rest' hrest' =>
      rcases h : cmpCharList s s' with _ | _ | _ <;>
        simp only [cmpKey, cmpNKElem, h] <;> try simp
      rcases h2 : compare n n' with _ | _ | _ <;> simp [h2]
      exact ih hrest'

/-- C10: `natural_key` produces a key for every string; keys alternate
string and integer elements starting with a string element (`KeyAlt`); any
two keys are comparable element-wise without comparing an integer against a
string (`cmpKey` never signals a `TypeError`); the induced order is natural:
`"ep2"` sorts before `"ep10"`, and
`["ep2.mkv","ep10.mkv","ep1.mkv"]` sorts to `["ep1.mkv","ep2.mkv","ep10.mkv"]`. -/
theorem c10_natural_key :
    (∀ s : String, KeyAlt (natural_key s)) ∧
    (∀ s t : String, cmpKey (natural_key s) (natural_key t) ≠ none) ∧
    cmpKey (natural_key "ep2") (natural_key "ep10") = some .lt ∧
    sortByNaturalKey ["ep2.mkv", "ep10.mkv", "ep1.mkv"] =
      ["ep1.mkv", "ep2.mkv", "ep10.mkv"] := by
  refine ⟨keyAlt_natural_key, ?_, by decide, by decide⟩
  intro s t
  exact cmpKey_ne_none_of_alt (keyAlt_natural_key s) (keyAlt_natural_key t)

/-- Closed instance of C10's comparability part. -/
theorem c10_natural_key_witness :
    cmpKey (natural_key "a1b") (natural_key "7z") ≠ none :=
  c10_natural_key.2.1 "a1b" "7z"

/-! ## Claim C5: the `2x05` parse -/

/-- C5: for `Show.Name.2x05.Some.Title.1080p.WEB-DL.mkv` the parser returns
season 2, episode 5 and trailing title `Some.Title`: rule 1 (`SxxEyy`) does
not match, the `<season>x<episode>` rule matches ending after `05`
(index 14), and trailing-title extraction keeps `Some`, `Title` and stops at
the resolution-shaped stop token `1080p`, rejoining with `.`. -/
theorem c5_parse_2x05 :
    parse_episode_info "Show.Name.2x05.Some.Title.1080p.WEB-DL.mkv" =
      (some 2, some 5, some "Some.Title") ∧
    pySearchEnd matchR1 "Show.Name.2x05.Some.Title.1080p.WEB-DL".data = none ∧
    pySearchEnd matchR2 "Show.Name.2x05.Some.Title.1080p.WEB-DL".data =
      some ((2, 5), 14) ∧
    extract_after_pos "Show.Name.2x05.Some.Title.1080p.WEB-DL".data 14 =
      some "Some.Title".data :=
  ⟨by decide, by decide, by decide, by decide⟩

/-! ## Claim C6: the padding step -/

/-- Counterexample to C6 as stated: for the rendered name
`Show7.S01E7.mkv` (whose episode marker is `E7`, value 7) with pad width 3,
the padding step rewrites the *earlier* occurrence `7` in `Show7`, and the
filename segment matched by the episode marker stays `E7` — it does not
contain `007`. -/
theorem c6_padding_counterexample :
    apply_padding_to_template "Show7.S01E7.mkv" 3 = "Show007.S01E7.mkv" ∧
    episodeMarkerOf "Show7.S01E7.mkv" = some "E7" ∧
    episodeMarkerOf (apply_padding_to_template "Show7.S01E7.mkv" 3) = some "E7" ∧
    ¬ "007".data <:+: "E7".data :=
  ⟨by decide, by decide, by decide, by decide⟩

/-- C6 (amended): the padding step replaces the **first occurrence anywhere
in the rendered name** of the episode marker's digit string with its
zero-filled form; the segment matched by the episode marker carries `007`
when those digits do not occur earlier in the name, as in
`Show.S01E7.mkv → Show.S01E007.mkv`. -/
theorem c6_padding_amended :
    (∀ (s : String) (pad : Nat) (x : (Char × List Char) × Nat),
        pySearchEnd matchEpMarker s.data = some x → x.1.2.length < pad →
        apply_padding_to_template s pad =
          (replaceFirst s.data x.1.2 (zfill pad x.1.2)).asString) ∧
    apply_padding_to_template "Show.S01E7.mkv" 3 = "Show.S01E007.mkv" ∧
    episodeMarkerOf "Show.S01E007.mkv" = some "E007" := by
  refine ⟨?_, by decide, by decide⟩
  intro s pad x hx hlen
  obtain ⟨⟨c, num⟩, e⟩ := x
  simp only at hlen
  unfold apply_padding_to_template
  rw [hx]
  simp [hlen]

theorem c6_padding_amended_witness :
    apply_padding_to_template "a.E5.mkv" 2 =
      (replaceFirst "a.E5.mkv".data "5".data (zfill 2 "5".data)).asString :=
  c6_padding_amended.1 "a.E5.mkv" 2 (('E', "5".data), 4) (by decide) (by decide)

/-! ## Claim C8: totality of the formatter -/

/-- C8: the formatter always produces a result: absent season/episode values
are substituted as `0` before formatting (formatting with `none` equals
formatting with `some 0`), and whenever the modelled `str.format` raises
(`pyFormat … = none`), the result is exactly the literal substring
replacement of the fixed placeholder names. -/
theorem c8_formatter_total_fallback :
    (∀ (t title ext orig : String),
        format_template t title none none ext orig =
          format_template t title (some 0) (some 0) ext orig) ∧
    (∀ (t title : String) (season episode : Option Int) (ext orig : String),
        pyFormat t.data title.data (season.getD 0) (episode.getD 0)
            (pyLstripChars ['.'] ext.data) orig.data = none →
        format_template t title season episode ext orig =
          (fallbackReplace t.data title.data season episode ext.data orig.data).asString) := by
  constructor
  · intro t title ext orig
    simp [format_template, fallbackReplace]
  · intro t title season episode ext orig h
    simp only [format_template]
    rw [h]

theorem c8_formatter_total_fallback_witness :
    format_template "\x7bunknown\x7d.E\x7bep\x7d" "T" (some 1) (some 2) ".mkv" "o" =
      (fallbackReplace "\x7bunknown\x7d.E\x7bep\x7d".data "T".data (some 1) (some 2)
        ".mkv".data "o".data).asString :=
  c8_formatter_total_fallback.2 "\x7bunknown\x7d.E\x7bep\x7d" "T" (some 1) (some 2)
    ".mkv" "o" (by decide)

/-! ## Claim C2: the strategy threshold -/

lemma pyInsertBy_perm (le : α → α → Bool) (x : α) (l : List α) :
    List.Perm (pyInsertBy le x l) (x :: l) := by
  induction l with
  | nil => exact List.Perm.refl _
  | cons y ys ih =>
    simp only [pyInsertBy]
    split
    · exact List.Perm.trans (List.Perm.cons y ih) (List.Perm.swap x y ys)
    · exact List.Perm.refl _

lemma pySorted_perm (le : α → α → Bool) (l : List α) :
    List.Perm (pySorted le l) l := by
  suffices h : ∀ (l acc : List α),
      List.Perm (List.foldl (fun acc x => pyInsertBy le x acc) acc l) (acc ++ l) by
    simpa [pySorted] using h l []
  intro l
  induction l with
  | nil => intro acc; simp
  | cons x t ih =>
    intro acc
    simp only [List.foldl_cons]
    exact List.Perm.trans (ih _)
      (List.Perm.trans ((pyInsertBy_perm le x acc).append_right t)
        List.perm_middle.symm)

lemma sortFiles_perm (cfg : Config) (files : List String) :
    List.Perm (sortFiles cfg files) files := by
  unfold sortFiles
  split_ifs <;> first | exact pySorted_perm _ _ | exact List.Perm.refl _

/-- The count of parse-successful entries over the `(path, parse)` pairs is
the count of parse-successful paths. -/
lemma countEp_parsed (files : List String) :
    ((files.map (fun p => (p, parse_episode_info p))).filter
        (fun x => x.2.2.1.isSome)).length =
      (files.filter (fun p => (parse_episode_info p).2.1.isSome)).length := by
  induction files with
  | nil => rfl
  | cons p t ih =>
    by_cases h : (parse_episode_info p).2.1.isSome <;>
      simp [List.filter_cons, h, ih]

lemma useParsed_eq (cfg : Config) (files : List String) :
    useParsedNumbers (sortFiles cfg files)
        ((sortFiles cfg files).map fun p => (p, parse_episode_info p)) =
      decide (max 2 (files.length / 3) ≤
        (files.filter (fun p => (parse_episode_info p).2.1.isSome)).length) := by
  unfold useParsedNumbers
  rw [decide_eq_decide]
  have hperm := sortFiles_perm cfg files
  have hlen : (sortFiles cfg files).length = files.length := hperm.length_eq
  have hcnt :
      ((sortFiles cfg files).filter
          (fun p => (parse_episode_info p).2.1.isSome)).length =
        (files.filter (fun p => (parse_episode_info p).2.1.isSome)).length := by
    rw [← List.countP_eq_length_filter, ← List.countP_eq_length_filter]
    exact hperm.countP_eq _
  rw [countEp_parsed, hlen, hcnt]

lemma selectedStrategy_trust_iff (cfg : Config) (files : List String) :
    selectedStrategy cfg files = .trust ↔
      max 2 (files.length / 3) ≤
        (files.filter (fun p => (parse_episode_info p).2.1.isSome)).length := by
  simp only [selectedStrategy]
  rw [useParsed_eq cfg files]
  by_cases h : max 2 (files.length / 3) ≤
      (files.filter (fun p => (parse_episode_info p).2.1.isSome)).length
  · simp [h]
  · rw [if_neg (by simp [h])]
    refine iff_of_false ?_ h
    split <;> simp

/-- The demonstration configuration used by the concrete batch instances
(DEFAULT_CONFIG values of the relevant fields). -/
def demoCfg : Config := { title := "A", season := "1", pad := 3, offset := 0, includeTitle := true, template := "\x7btitle\x7d.S\x7bseason:02\x7dE\x7bepisode:03\x7d.\x7bext\x7d", sortMethod := "name", conflictSuffix := "_dup", moveSeasonFolder := false }

/-- Nine files, four of which carry `SxxEyy` markers (the rest parse to no
episode at all). -/
def batchA : List String :=
  ["/v/A.S01E01.mkv", "/v/A.S01E02.mkv", "/v/A.S01E03.mkv", "/v/A.S01E04.mkv",
   "/v/alpha.mkv", "/v/beta.mkv", "/v/gamma.mkv", "/v/delta.mkv", "/v/epsilon.mkv"]

/-- Nine files, one `SxxEyy` marker, no pure-numeric names and no other
parseable episode numbers. -/
def batchB : List String :=
  ["/v/A.S01E01.mkv", "/v/alpha.mkv", "/v/beta.mkv", "/v/gamma.mkv",
   "/v/delta.mkv", "/v/epsilon.mkv", "/v/zeta.mkv", "/v/eta.mkv", "/v/theta.mkv"]

/-- C2: trust-parsed-numbers is selected iff the number of files with a
present parsed episode is at least `max 2 (batchSize / 3)`; in particular a
9-file batch with 4 parsed episodes selects trust-parsed-numbers, and a
9-file batch with one `SxxEyy` marker, no other parsed episodes and no
pure-numeric names selects sequential-fallback. -/
theorem c2_strategy_threshold :
    (∀ (cfg : Config) (files : List String),
        selectedStrategy cfg files = .trust ↔
          max 2 (files.length / 3) ≤
            (files.filter (fun p => (parse_episode_info p).2.1.isSome)).length) ∧
    batchA.length = 9 ∧
    (batchA.filter (fun p => (parse_episode_info p).2.1.isSome)).length = 4 ∧
    selectedStrategy demoCfg batchA = .trust ∧
    batchB.length = 9 ∧
    (batchB.filter (fun p => (parse_episode_info p).2.1.isSome)).length = 1 ∧
    (batchB.filter isPureNumericName).length = 0 ∧
    selectedStrategy demoCfg batchB = .fallb :=
  ⟨selectedStrategy_trust_iff, by decide, by decide, by decide, by decide,
    by decide, by decide, by decide⟩

theorem c2_strategy_threshold_witness :
    selectedStrategy demoCfg ["/w/x.S01E01.mkv", "/w/x.S01E02.mkv"] = .trust :=
  (c2_strategy_threshold.1 demoCfg ["/w/x.S01E01.mkv", "/w/x.S01E02.mkv"]).mpr
    (by decide)

/-! ## The pure-numeric branch is unreachable

Every pure-numeric filename (1–3 digits) parses to a present episode number
through fallback rule 7, so a batch meeting the pure-numeric threshold always
meets the trust-parsed threshold first. -/

lemma pySearchAux_none {α : Type} {m : List Char → Option (α × List Char)}
    (hm : ∀ l, (∀ c ∈ l, isAsciiDigit c = true) → m l = none) :
    ∀ (total : Nat) (l : List Char), (∀ c ∈ l, isAsciiDigit c = true) →
      pySearchAux m total l = none := by
  intro total l
  induction l with
  | nil => intro h; simp [pySearchAux, hm [] (by simp)]
  | cons c t ih =>
    intro h
    simp only [pySearchAux]
    rw [hm (c :: t) h]
    exact ih fun x hx => h x (List.mem_cons_of_mem _ hx)

lemma matchDiSeason_none_of_digits :
    ∀ l, (∀ c ∈ l, isAsciiDigit c = true) → matchDiSeason l = none := by
  intro l h
  cases l with
  | nil => rfl
  | cons c t =>
    have hc : isAsciiDigit c = true := h c (List.mem_cons_self _ _)
    have hnd : ¬ c = '第' := by
      intro hcontra
      subst hcontra
      exact absurd hc (by decide)
    simp [matchDiSeason, hnd]

lemma isWordChar_of_digit {c : Char} (h : isAsciiDigit c = true) :
    isWordChar c = true := by
  have hd : c.isDigit = true := h
  simp [isWordChar, Char.isAlphanum, hd]

lemma splitWordRunsAux_all_digit :
    ∀ (l cur : List Char), (∀ c ∈ l, isAsciiDigit c = true) →
      splitWordRunsAux (some cur) l = [cur.reverse ++ l] := by
  intro l
  induction l with
  | nil => intro cur _; simp [splitWordRunsAux]
  | cons c t ih =>
    intro cur h
    have hw := isWordChar_of_digit (h c (List.mem_cons_self _ _))
    simp only [splitWordRunsAux, hw, if_true, Option.getD_some]
    rw [ih (c :: cur) fun x hx => h x (List.mem_cons_of_mem _ hx)]
    simp

lemma standaloneNums_pure (name : List Char) (hne : name ≠ [])
    (hd : ∀ c ∈ name, isAsciiDigit c = true) (hlen : name.length ≤ 3) :
    standaloneNums name = [name] := by
  unfold standaloneNums splitWordRuns
  cases name with
  | nil => exact absurd rfl hne
  | cons c t =>
    have hw := isWordChar_of_digit (hd c (List.mem_cons_self _ _))
    simp only [splitWordRunsAux, hw, if_true, Option.getD_none]
    rw [splitWordRunsAux_all_digit t [c] fun x hx => hd x (List.mem_cons_of_mem _ hx)]
    have h1 : pyIsDigit (c :: t) = true := pyIsDigit_eq_true_of_all hne hd
    have h2 : t.length ≤ 2 := by
      simp only [List.length_cons] at hlen
      omega
    simp [List.filter, h1, h2]

lemma parse_pure_episode_isSome (p : String) (h : isPureNumericName p = true) :
    (parse_episode_info p).2.1.isSome = true := by
  unfold isPureNumericName at h
  rw [Bool.and_eq_true, decide_eq_true_iff] at h
  obtain ⟨hdig, hlen⟩ := h
  have hne : (pySplitext (basenameL p.data)).1 ≠ [] := by
    intro hcontra
    rw [hcontra] at hdig
    exact absurd hdig (by decide)
  have hall : ∀ c ∈ (pySplitext (basenameL p.data)).1, isAsciiDigit c = true := by
    have := hdig
    simp only [pyIsDigit, Bool.and_eq_true, List.all_eq_true] at this
    exact this.2
  simp only [parse_episode_info]
  rcases h1 : pySearchEnd matchR1 (pySplitext (basenameL p.data)).1 with _ | x1
  case some => simp [h1]
  rcases h2 : pySearchEnd matchR2 (pySplitext (basenameL p.data)).1 with _ | x2
  case some => simp [h1, h2]
  rcases h3 : pySearchEnd matchR3 (pySplitext (basenameL p.data)).1 with _ | x3
  case some => simp [h1, h2, h3]
  have h4 : pySearchEnd matchDiSeason (pySplitext (basenameL p.data)).1 = none :=
    pySearchAux_none (fun l hl => matchDiSeason_none_of_digits l hl) _ _ hall
  rcases h5 : pySearchEnd matchDiEpisode (pySplitext (basenameL p.data)).1 with _ | x5
  case some => simp [h1, h2, h3, h4, h5]
  rcases h6 : pySearchEnd matchR6 (pySplitext (basenameL p.data)).1 with _ | x6
  case some => simp [h1, h2, h3, h4, h5, h6]
  have h7 := standaloneNums_pure (pySplitext (basenameL p.data)).1 hne hall hlen
  rcases h8 : searchBound (pySplitext (basenameL p.data)).1
      (pySplitext (basenameL p.data)).1 with _ | x8 <;>
    simp [h1, h2, h3, h4, h5, h6, h7, h8]

lemma length_filterMap_if {α β : Type} (f : α → β) (p : α → Bool) (l : List α) :
    (l.filterMap fun x => if p x then some (f x) else none).length = l.countP p := by
  induction l with
  | nil => rfl
  | cons x t ih =>
    by_cases h : p x <;> simp [List.filterMap_cons, h, ih, List.countP_cons]

/-- The pure-numeric branch of `preview` is dead code: its guard implies the
trust-parsed guard. -/
lemma selectedStrategy_ne_pureNum (cfg : Config) (files : List String) :
    selectedStrategy cfg files ≠ .pureNum := by
  simp only [selectedStrategy]
  intro hcontra
  set files' := sortFiles cfg files with hf
  set parsed := files'.map (fun p => (p, parse_episode_info p)) with hp
  by_cases hu : useParsedNumbers files' parsed
  · simp [hu] at hcontra
  · rw [if_neg (by simpa using hu)] at hcontra
    by_cases hg : (!(pureNumericFiles parsed).isEmpty &&
        decide (max 2 (files'.length / 3) ≤ (pureNumericFiles parsed).length)) = true
    case neg =>
      rw [if_neg hg] at hcontra
      exact absurd hcontra (by decide)
    case pos =>
      rw [Bool.and_eq_true, decide_eq_true_iff] at hg
      obtain ⟨-, hthr⟩ := hg
      have hcount : (pureNumericFiles parsed).length = parsed.countP
          (fun x => isPureNumericName x.1) :=
        length_filterMap_if _ _ _
      have hmono : parsed.countP (fun x => isPureNumericName x.1) ≤
          parsed.countP (fun x => x.2.2.1.isSome) := by
        apply List.countP_mono_left
        intro x hx hpx
        rw [hp] at hx
        obtain ⟨q, _, rfl⟩ := List.mem_map.mp hx
        exact parse_pure_episode_isSome q hpx
      simp only [useParsedNumbers, decide_eq_true_iff] at hu
      rw [← List.countP_eq_length_filter] at hu
      rw [hcount] at hthr
      exact hu (le_trans hthr hmono)

/-! ## Claims C3 and C4: episode assignment -/

lemma enumFrom_map_index {α β : Type} (h : Nat → β) :
    ∀ (n : Nat) (l : List α),
      (List.enumFrom n l).map (fun ip => h ip.1) = (List.range' n l.length).map h := by
  intro n l
  induction l generalizing n with
  | nil => rfl
  | cons x t ih =>
    simp only [List.enumFrom, List.length_cons, List.range', List.map_cons]
    rw [ih]

lemma enum_map_index {α β : Type} (h : Nat → β) (l : List α) :
    l.enum.map (fun ip => h ip.1) = (List.range l.length).map h := by
  have he : l.enum = List.enumFrom 0 l := rfl
  rw [he, enumFrom_map_index, ← List.range_eq_range']

lemma enum_map_val {α β : Type} (g : α → β) (l : List α) :
    l.enum.map (fun ip => g ip.2) = l.map g := by
  have aux : ∀ (n : Nat) (l : List α),
      (List.enumFrom n l).map (fun ip => g ip.2) = l.map g := by
    intro n l
    induction l generalizing n with
    | nil => rfl
    | cons x t ih => simp only [List.enumFrom, List.map_cons]; rw [ih]
  exact aux 0 l

lemma map_path_mk (sf off : Int) (l : List String) :
    ((l.enum.map fun ip =>
      (⟨ip.2, none, none, none, sf, ((ip.1 : Int) + 1) + off⟩ : Assign)).map
        Assign.path) = l := by
  suffices aux : ∀ (n : Nat) (l : List String),
      (((List.enumFrom n l).map fun ip =>
        (⟨ip.2, none, none, none, sf, ((ip.1 : Int) + 1) + off⟩ : Assign)).map
          Assign.path) = l from aux 0 l
  intro n l
  induction l generalizing n with
  | nil => rfl
  | cons x t ih =>
    simp only [List.enumFrom, List.map_cons]
    rw [ih]

lemma map_ep_mk (sf off : Int) (l : List String) :
    ((l.enum.map fun ip =>
      (⟨ip.2, none, none, none, sf, ((ip.1 : Int) + 1) + off⟩ : Assign)).map
        Assign.ep) =
      (List.range l.length).map (fun (i : Nat) => ((i : Int) + 1) + off) := by
  suffices aux : ∀ (n : Nat) (l : List String),
      (((List.enumFrom n l).map fun ip =>
        (⟨ip.2, none, none, none, sf, ((ip.1 : Int) + 1) + off⟩ : Assign)).map
          Assign.ep) =
        (List.range' n l.length).map (fun (i : Nat) => ((i : Int) + 1) + off) by
    have h := aux 0 l
    rw [← List.range_eq_range'] at h
    exact h
  intro n l
  induction l generalizing n with
  | nil => rfl
  | cons x t ih =>
    simp only [List.enumFrom, List.map_cons, List.length_cons, List.range', ih]

/-- Counterexample to C3 as stated: in the pure-numeric branch body applied
to the batch `01.mkv, 02.mkv, a.mkv, b.mkv`, the two appended non-pure
files both receive episode 3 — the appended episode numbers are not strictly
increasing. -/
def parsedC3 : List (String × ParseRes) :=
  (["/d/01.mkv", "/d/02.mkv", "/d/a.mkv", "/d/b.mkv"]).map
    (fun p => (p, parse_episode_info p))

def pureC3 : List String := pureNumericFiles parsedC3

theorem c3_pure_branch_counterexample :
    ((pureAssign demoCfg parsedC3 pureC3).map Assign.ep).drop
        (pySorted pureNumLe pureC3).length = [3, 3] ∧
    ¬ List.Chain' (· < ·)
        (((pureAssign demoCfg parsedC3 pureC3).map Assign.ep).drop
          (pySorted pureNumLe pureC3).length) := by
  have h : ((pureAssign demoCfg parsedC3 pureC3).map Assign.ep).drop
      (pySorted pureNumLe pureC3).length = [3, 3] := by decide
  refine ⟨h, ?_⟩
  rw [h]
  simp [List.chain'_cons]

/-- C3 (amended): under the pure-numeric-sequence branch, the pure-numeric
files sorted by numeric value are assigned episodes `1+offset, 2+offset, …`
in order, and every remaining non-pure-numeric file of the batch is appended
afterward with the **same** episode number `n+1+offset` (the single value
following the last pure-numeric one), where `n` is the number of
pure-numeric files; moreover the branch is unreachable — `preview` never
selects the pure-numeric strategy, because every pure-numeric filename
parses to a present episode number. -/
theorem c3_pure_branch_amended :
    (∀ (cfg : Config) (parsed : List (String × ParseRes)) (pureFs : List String),
        ((pureAssign cfg parsed pureFs).map Assign.path).take
            (pySorted pureNumLe pureFs).length =
          pySorted pureNumLe pureFs) ∧
    (∀ (cfg : Config) (parsed : List (String × ParseRes)) (pureFs : List String),
        ((pureAssign cfg parsed pureFs).map Assign.ep).take
            (pySorted pureNumLe pureFs).length =
          (List.range (pySorted pureNumLe pureFs).length).map
            (fun (i : Nat) => ((i : Int) + 1) + cfg.offset)) ∧
    (∀ (cfg : Config) (parsed : List (String × ParseRes)) (pureFs : List String)
        (a : Assign),
        a ∈ (pureAssign cfg parsed pureFs).drop (pySorted pureNumLe pureFs).length →
        a.ep = (((pySorted pureNumLe pureFs).length : Int) + 1) + cfg.offset) ∧
    (∀ (cfg : Config) (files : List String),
        selectedStrategy cfg files ≠ .pureNum) := by
  refine ⟨?_, ?_, ?_, selectedStrategy_ne_pureNum⟩
  · intro cfg parsed pureFs
    simp only [pureAssign, List.map_append]
    have hp1 := map_path_mk
      (match seasonVal cfg with | some n => (n : Int) | none => 1)
      cfg.offset (pySorted pureNumLe pureFs)
    have hlen : (((pySorted pureNumLe pureFs).enum.map fun ip =>
        (⟨ip.2, none, none, none,
          (match seasonVal cfg with | some n => (n : Int) | none => 1),
          ((ip.1 : Int) + 1) + cfg.offset⟩ : Assign)).map Assign.path).length =
        (pySorted pureNumLe pureFs).length := by
      rw [hp1]
    rw [← hlen, List.take_left]
    exact hp1
  · intro cfg parsed pureFs
    simp only [pureAssign, List.map_append]
    have hp1 := map_ep_mk
      (match seasonVal cfg with | some n => (n : Int) | none => 1)
      cfg.offset (pySorted pureNumLe pureFs)
    have hlen : (((pySorted pureNumLe pureFs).enum.map fun ip =>
        (⟨ip.2, none, none, none,
          (match seasonVal cfg with | some n => (n : Int) | none => 1),
          ((ip.1 : Int) + 1) + cfg.offset⟩ : Assign)).map Assign.ep).length =
        (pySorted pureNumLe pureFs).length := by
      rw [hp1]
      simp
    nth_rewrite 1 [← hlen]
    rw [List.take_left]
    exact hp1
  · intro cfg parsed pureFs a ha
    simp only [pureAssign] at ha
    have hlen : ((pySorted pureNumLe pureFs).enum.map fun ip =>
        (⟨ip.2, none, none, none,
          (match seasonVal cfg with | some n => (n : Int) | none => 1),
          ((ip.1 : Int) + 1) + cfg.offset⟩ : Assign)).length =
        (pySorted pureNumLe pureFs).length := by
      simp
    nth_rewrite 1 [← hlen] at ha
    rw [List.drop_left] at ha
    obtain ⟨p, -, rfl⟩ := List.mem_map.mp ha
    rfl

theorem c3_pure_branch_amended_witness :
    (⟨"/d/a.mkv", none, none, none, 1, 3⟩ : Assign).ep =
      (((pySorted pureNumLe pureC3).length : Int) + 1) + demoCfg.offset :=
  c3_pure_branch_amended.2.2.1 demoCfg parsedC3 pureC3 _ (by decide)

/-- `{cfg with offset := 10}`: the configuration of C4's concrete instance. -/
def cfgOffset10 : Config := { demoCfg with offset := 10 }

/-- C4: in each of the three numbering branches the user offset enters the
episode number exactly once and additively — the episode numbers computed
with offset `o` are exactly the episode numbers computed with offset `0`,
each shifted by `o`; and in every preview pass (whose selected strategy is
always trust-parsed-numbers or sequential-fallback, the pure-numeric branch
being unreachable), an entry whose parsed episode is 1 receives final
episode 11 under offset 10. -/
theorem c4_offset_once :
    (∀ (cfg : Config) (o : Int) (parsed : List (String × ParseRes)),
        (trustAssign { cfg with offset := o } parsed).map Assign.ep =
          ((trustAssign { cfg with offset := 0 } parsed).map Assign.ep).map (· + o)) ∧
    (∀ (cfg : Config) (o : Int) (parsed : List (String × ParseRes)),
        (fallbackAssign { cfg with offset := o } parsed).map Assign.ep =
          ((fallbackAssign { cfg with offset := 0 } parsed).map Assign.ep).map (· + o)) ∧
    (∀ (cfg : Config) (o : Int) (parsed : List (String × ParseRes))
        (pureFs : List String),
        (pureAssign { cfg with offset := o } parsed pureFs).map Assign.ep =
          ((pureAssign { cfg with offset := 0 } parsed pureFs).map Assign.ep).map (· + o)) ∧
    (∀ (cfg : Config) (files : List String) (a : Assign),
        cfg.offset = 10 → a ∈ previewAssign cfg files → a.eAuto = some 1 →
        a.ep = 11) := by
  refine ⟨?_, ?_, ?_, ?_⟩
  · intro cfg o parsed
    simp only [trustAssign, List.map_map]
    apply List.map_congr_left
    intro ip _
    cases h : ip.2.2.2.1 <;> simp [h]
  · intro cfg o parsed
    simp only [fallbackAssign, List.map_map]
    apply List.map_congr_left
    intro ip _
    cases h : ip.2.2.2.1 <;> simp [h]
  · intro cfg o parsed pureFs
    simp only [pureAssign, List.map_append, List.map_map]
    congr 1
  · intro cfg files a hoff hmem heA
    simp only [previewAssign] at hmem
    by_cases hE : files.isEmpty
    · simp [hE] at hmem
    · simp only [hE, Bool.false_eq_true, if_false] at hmem
      rcases hstrat : selectedStrategy cfg files with _ | _ | _
      · rw [hstrat] at hmem
        simp only [trustAssign, List.mem_map] at hmem
        obtain ⟨ip, -, rfl⟩ := hmem
        simp only at heA ⊢
        rw [heA, hoff]
        norm_num
      · exact absurd hstrat (selectedStrategy_ne_pureNum cfg files)
      · rw [hstrat] at hmem
        simp only [fallbackAssign, List.mem_map] at hmem
        obtain ⟨ip, -, rfl⟩ := hmem
        simp only at heA ⊢
        rw [heA, hoff]
        norm_num

theorem c4_offset_once_witness :
    (⟨"/v/A.S01E01.mkv", some 1, some 1, none, 1, 11⟩ : Assign).ep = 11 :=
  c4_offset_once.2.2.2 cfgOffset10 ["/v/A.S01E01.mkv", "/v/A.S01E02.mkv"] _
    (by decide) (by decide) (by decide)

/-! ## Claim C9: preview cardinality -/

lemma length_filterMap_ifn {α β : Type} (f : α → β) (p : α → Bool) (l : List α) :
    (l.filterMap fun x => if p x then none else some (f x)).length =
      l.countP (fun x => !p x) := by
  induction l with
  | nil => rfl
  | cons x t ih =>
    by_cases h : p x <;> simp [List.filterMap_cons, h, ih, List.countP_cons]

lemma countP_add_countP_not (p : α → Bool) (l : List α) :
    l.countP p + l.countP (fun a => !p a) = l.length := by
  induction l with
  | nil => rfl
  | cons x t ih =>
    by_cases h : p x <;> simp [List.countP_cons, h] <;> omega

lemma contains_pureNumericFiles (parsed : List (String × ParseRes))
    {x : String × ParseRes} (hx : x ∈ parsed) :
    (pureNumericFiles parsed).contains x.1 = isPureNumericName x.1 := by
  by_cases h : isPureNumericName x.1 = true
  · have hmem : x.1 ∈ pureNumericFiles parsed := by
      unfold pureNumericFiles
      exact List.mem_filterMap.mpr ⟨x, hx, by simp [h]⟩
    rw [h]
    simpa using hmem
  · have hB : isPureNumericName x.1 = false := by simpa using h
    have hmem : x.1 ∉ pureNumericFiles parsed := by
      intro hcontra
      unfold pureNumericFiles at hcontra
      obtain ⟨y, -, hyx⟩ := List.mem_filterMap.mp hcontra
      by_cases hyp : isPureNumericName y.1 = true
      · rw [if_pos hyp] at hyx
        have : y.1 = x.1 := Option.some.inj hyx
        rw [this] at hyp
        exact absurd hyp (by simp [hB])
      · rw [if_neg hyp] at hyx
        exact Option.noConfusion hyx
    rw [hB]
    simpa using hmem

/-- C9: the preview list has exactly one entry per scanned file in every
branch.  The first part covers the whole of `preview` (the pure-numeric
branch never being selected); the second establishes the per-file property
for the pure-numeric branch body itself, applied to its actual arguments. -/
theorem c9_preview_length :
    (∀ (cfg : Config) (files : List String),
        (previewList cfg files).length = files.length) ∧
    (∀ (cfg : Config) (parsed : List (String × ParseRes)),
        (pureAssign cfg parsed (pureNumericFiles parsed)).length = parsed.length) := by
  constructor
  · intro cfg files
    simp only [previewList, List.length_map, previewAssign]
    by_cases hE : files.isEmpty
    · have h0 : files = [] := by simpa using hE
      simp [h0]
    · simp only [hE, Bool.false_eq_true, if_false]
      rcases hstrat : selectedStrategy cfg files with _ | _ | _
      · simp only [trustAssign, List.length_map, List.enum_length]
        rw [(pySorted_perm trustLe _).length_eq, List.length_map,
          (sortFiles_perm cfg files).length_eq]
      · exact absurd hstrat (selectedStrategy_ne_pureNum cfg files)
      · simp only [fallbackAssign, List.length_map, List.enum_length]
        rw [(sortFiles_perm cfg files).length_eq]
  · intro cfg parsed
    simp only [pureAssign, List.length_append, List.length_map, List.enum_length]
    rw [(pySorted_perm pureNumLe (pureNumericFiles parsed)).length_eq]
    have h1 : (pureNumericFiles parsed).length =
        parsed.countP (fun x => isPureNumericName x.1) :=
      length_filterMap_if _ _ _
    have h2 : (parsed.filterMap fun x =>
        if (pureNumericFiles parsed).contains x.1 then none else some x.1).length =
        parsed.countP (fun x => !(pureNumericFiles parsed).contains x.1) :=
      length_filterMap_ifn _ _ _
    have h3 : parsed.countP (fun x => !(pureNumericFiles parsed).contains x.1) =
        parsed.countP (fun x => !isPureNumericName x.1) := by
      apply List.countP_congr
      intro x hx
      rw [contains_pureNumericFiles parsed hx]
    rw [h2, h3, h1, countP_add_countP_not]

/-! ## Claim C7: conflict and unchanged flags -/

lemma conflictScan_mem (k : String × String) :
    ∀ (ks seen conf : List (String × String)),
      (k ∈ conflictScan ks seen conf ↔
        k ∈ conf ∨ (k ∈ seen ∧ k ∈ ks) ∨ 2 ≤ ks.count k) := by
  intro ks
  induction ks with
  | nil => intro seen conf; simp [conflictScan]
  | cons k0 rest ih =>
    intro seen conf
    simp only [conflictScan]
    by_cases h0 : seen.contains k0 = true
    · rw [if_pos h0, ih]
      have hs : k0 ∈ seen := by simpa using h0
      by_cases hk : k = k0
      · subst hk
        simp [hs, List.count_cons_self]
      · simp [List.mem_cons, hk, List.count_cons_of_ne hk]
    · rw [if_neg h0, ih]
      have hns : k0 ∉ seen := by simpa using h0
      by_cases hk : k = k0
      · subst hk
        rw [List.count_cons_self]
        constructor
        · rintro (hc | ⟨-, hr⟩ | h2)
          · exact Or.inl hc
          · have := List.count_pos_iff.mpr hr
            exact Or.inr (Or.inr (by omega))
          · exact Or.inr (Or.inr (by omega))
        · rintro (hc | ⟨hs, -⟩ | h2)
          · exact Or.inl hc
          · exact absurd hs hns
          · have hr : k ∈ rest := List.count_pos_iff.mp (by omega)
            exact Or.inr (Or.inl ⟨List.mem_cons_self _ _, hr⟩)
      · simp [List.mem_cons, hk, List.count_cons_of_ne hk]

lemma buildConflictSet_mem (entries : List PrevEntry) (k : String × String) :
    k ∈ buildConflictSet entries ↔ 2 ≤ (entries.map entryKey).count k := by
  unfold buildConflictSet
  rw [conflictScan_mem]
  simp

lemma two_le_count_iff_exists {α : Type} [BEq α] [LawfulBEq α] :
    ∀ (l : List α) (i : Nat) (h : i < l.length),
      2 ≤ l.count (l.get ⟨i, h⟩) ↔
        ∃ j, ∃ hj : j < l.length, j ≠ i ∧ l.get ⟨j, hj⟩ = l.get ⟨i, h⟩ := by
  intro l
  induction l with
  | nil => intro i h; exact absurd h (Nat.not_lt_zero i)
  | cons a t ih =>
    intro i h
    cases i with
    | zero =>
      rw [show (a :: t).get ⟨0, h⟩ = a from rfl, List.count_cons_self]
      constructor
      · intro h2
        have hmem : a ∈ t := List.count_pos_iff.mp (by omega)
        obtain ⟨⟨j, hj⟩, hget⟩ := List.mem_iff_get.mp hmem
        refine ⟨j + 1, Nat.succ_lt_succ hj, ?_, ?_⟩
        · omega
        · simpa using hget
      · rintro ⟨j, hj, hne, hget⟩
        cases j with
        | zero => exact absurd rfl hne
        | succ j' =>
          have hj' : j' < t.length := by simpa using hj
          have hget' : t.get ⟨j', hj'⟩ = a := by simpa using hget
          have hmem : a ∈ t := hget' ▸ List.get_mem t j' hj'
          have := List.count_pos_iff.mpr hmem
          omega
    | succ i' =>
      have hi' : i' < t.length := by simpa using h
      rw [show (a :: t).get ⟨i' + 1, h⟩ = t.get ⟨i', hi'⟩ from rfl]
      by_cases hax : a = t.get ⟨i', hi'⟩
      · refine iff_of_true ?_ ⟨0, Nat.succ_pos _, ?_, ?_⟩
        · have hmem : t.get ⟨i', hi'⟩ ∈ t := List.get_mem t i' hi'
          have hpos := List.count_pos_iff.mpr hmem
          rw [← hax, List.count_cons_self]
          rw [← hax] at hpos
          omega
        · omega
        · simpa using hax
      · rw [List.count_cons_of_ne (fun hcontra => hax hcontra.symm)]
        rw [ih i' hi']
        constructor
        · rintro ⟨j', hj', hne, hget⟩
          refine ⟨j' + 1, Nat.succ_lt_succ hj', ?_, ?_⟩
          · omega
          · simpa using hget
        · rintro ⟨j, hj, hne, hget⟩
          cases j with
          | zero =>
            have hg0 : a = t.get ⟨i', hi'⟩ := by simpa using hget
            exact absurd hg0 hax
          | succ j' =>
            refine ⟨j', by simpa using hj, ?_, ?_⟩
            · omega
            · simpa using hget

lemma two_le_count_map_iff (entries : List PrevEntry) (i : Nat)
    (h : i < entries.length) :
    2 ≤ (entries.map entryKey).count (entryKey (entries.get ⟨i, h⟩)) ↔
      ∃ j, ∃ hj : j < entries.length, j ≠ i ∧
        entryKey (entries.get ⟨j, hj⟩) = entryKey (entries.get ⟨i, h⟩) := by
  have hlen : (entries.map entryKey).length = entries.length := by simp
  have hi2 : i < (entries.map entryKey).length := by omega
  have hbase := two_le_count_iff_exists (entries.map entryKey) i hi2
  have hget : (entries.map entryKey).get ⟨i, hi2⟩ =
      entryKey (entries.get ⟨i, h⟩) := by simp
  rw [hget] at hbase
  rw [hbase]
  constructor
  · rintro ⟨j, hj, hne, hg⟩
    have hj2 : j < entries.length := by omega
    refine ⟨j, hj2, hne, ?_⟩
    have h1 : (entries.map entryKey).get ⟨j, hj⟩ =
        entryKey (entries.get ⟨j, hj2⟩) := by simp
    rw [h1] at hg
    exact hg
  · rintro ⟨j, hj, hne, hg⟩
    have hj2 : j < (entries.map entryKey).length := by omega
    refine ⟨j, hj2, hne, ?_⟩
    have h1 : (entries.map entryKey).get ⟨j, hj2⟩ =
        entryKey (entries.get ⟨j, hj⟩) := by simp
    rw [h1, hg]

/-- C7: an entry of a preview list is tagged `conflict` iff another entry
shares its conflict key — the same containing directory and a target
filename equal up to lower-casing (both members of every colliding pair are
flagged, the first included); it is tagged `unchanged` iff it is not in a
conflict and its original name equals its target name exactly.  The
displayed tags are `previewTags entries = entries.map (tagOf
(buildConflictSet entries))` by definition. -/
theorem c7_conflict_unchanged :
    ∀ (entries : List PrevEntry) (i : Nat) (h : i < entries.length),
      (tagOf (buildConflictSet entries) (entries.get ⟨i, h⟩) = "conflict" ↔
        ∃ j, ∃ hj : j < entries.length, j ≠ i ∧
          entryKey (entries.get ⟨j, hj⟩) = entryKey (entries.get ⟨i, h⟩)) ∧
      (tagOf (buildConflictSet entries) (entries.get ⟨i, h⟩) = "unchanged" ↔
        ((¬ ∃ j, ∃ hj : j < entries.length, j ≠ i ∧
            entryKey (entries.get ⟨j, hj⟩) = entryKey (entries.get ⟨i, h⟩)) ∧
          (entries.get ⟨i, h⟩).oldname = (entries.get ⟨i, h⟩).newname)) := by
  intro entries i h
  have hcontains :
      (buildConflictSet entries).contains (entryKey (entries.get ⟨i, h⟩)) = true ↔
        ∃ j, ∃ hj : j < entries.length, j ≠ i ∧
          entryKey (entries.get ⟨j, hj⟩) = entryKey (entries.get ⟨i, h⟩) := by
    rw [show ((buildConflictSet entries).contains
          (entryKey (entries.get ⟨i, h⟩)) = true) ↔
        entryKey (entries.get ⟨i, h⟩) ∈ buildConflictSet entries by simp]
    rw [buildConflictSet_mem]
    exact two_le_count_map_iff entries i h
  constructor
  · unfold tagOf
    by_cases hc : (buildConflictSet entries).contains
        (entryKey (entries.get ⟨i, h⟩)) = true
    · rw [if_pos hc]
      exact iff_of_true rfl (hcontains.mp hc)
    · rw [if_neg hc]
      refine iff_of_false ?_ (fun hex => hc (hcontains.mpr hex))
      split <;> simp
  · unfold tagOf
    by_cases hc : (buildConflictSet entries).contains
        (entryKey (entries.get ⟨i, h⟩)) = true
    · rw [if_pos hc]
      exact iff_of_false (by simp)
        (fun hp => hp.1 (hcontains.mp hc))
    · rw [if_neg hc]
      by_cases ho : (entries.get ⟨i, h⟩).oldname = (entries.get ⟨i, h⟩).newname
      · rw [if_pos ho]
        exact iff_of_true rfl ⟨fun hex => hc (hcontains.mpr hex), ho⟩
      · rw [if_neg ho]
        exact iff_of_false (by simp) (fun hp => ho hp.2)

/-- Two entries of one directory whose targets differ only by case. -/
def entsC7 : List PrevEntry :=
  [⟨"/d/x.mkv", "/d/T.mkv", "x.mkv", "T.mkv"⟩,
   ⟨"/d/y.mkv", "/d/T.mkv", "y.mkv", "t.MKV"⟩]

theorem c7_conflict_unchanged_witness :
    tagOf (buildConflictSet entsC7) (entsC7.get ⟨0, by decide⟩) = "conflict" :=
  (c7_conflict_unchanged entsC7 0 (by decide)).1.mpr
    ⟨1, by decide, by decide, by decide⟩

/-! ## Claim C1: the rename/undo round trip -/

lemma mem_map_cons {α β : Type} (f : α → β) (e : α) {x : β} {rest : List α}
    (h : x ∈ rest.map f) : x ∈ (e :: rest).map f := by
  simp only [List.map_cons]
  exact List.mem_cons_of_mem _ h

lemma fsLookup_erase_ne (fs : Fs) (k x : String) (h : k ≠ x) :
    fsLookup (fsErase fs k) x = fsLookup fs x := by
  induction fs with
  | nil => rfl
  | cons p t ih =>
    obtain ⟨k0, v0⟩ := p
    by_cases h0 : k0 = k
    · subst h0
      simp only [fsErase, List.filter_cons]
      have : (k0 != k0) = false := by simp
      rw [this]
      have hx : (k0 = x) = False := by simp [h]
      simp only [fsLookup, hx, if_false]
      exact ih
    · simp only [fsErase, List.filter_cons]
      have : (k0 != k) = true := by simp [h0]
      rw [this]
      simp only [fsLookup]
      split
      · rfl
      · exact ih

lemma fsLookup_erase_self (fs : Fs) (k : String) :
    fsLookup (fsErase fs k) k = none := by
  induction fs with
  | nil => rfl
  | cons p t ih =>
    obtain ⟨k0, v0⟩ := p
    by_cases h0 : k0 = k
    · subst h0
      simp only [fsErase, List.filter_cons]
      have : (k0 != k0) = false := by simp
      rw [this]
      exact ih
    · simp only [fsErase, List.filter_cons]
      have : (k0 != k) = true := by simp [h0]
      rw [this]
      simp only [fsLookup, h0, if_false]
      exact ih

lemma fsLookup_insert_self (fs : Fs) (k : String) (v : Nat) :
    fsLookup (fsInsert fs k v) k = some v := by
  simp [fsInsert, fsLookup]

lemma fsLookup_insert_ne (fs : Fs) (k x : String) (v : Nat) (h : k ≠ x) :
    fsLookup (fsInsert fs k v) x = fsLookup fs x := by
  simp only [fsInsert, fsLookup, h, if_false]
  exact fsLookup_erase_ne fs k x h

/-- The destination a successful entry is logged with, when the season-folder
computation does not raise. -/
def destOf (cfg : Config) (e : PrevEntry) : String := (baseTarget cfg e).getD ""

/-- Characterisation of `_execute_task` on a batch whose original paths are
distinct and present, and whose resolved destinations are defined, initially
absent, pairwise distinct and disjoint from the original paths: every entry
is moved from its original path to its resolved destination, the log records
exactly these pairs in order, and every other path is untouched. -/
lemma execGo_spec (cfg : Config) :
    ∀ (P : List PrevEntry) (fs : Fs),
      (P.map PrevEntry.oldabs).Nodup →
      (∀ e ∈ P, fsContains fs e.oldabs = true) →
      (∀ e ∈ P, (baseTarget cfg e).isSome = true) →
      (∀ e ∈ P, fsContains fs (destOf cfg e) = false ∧
        destOf cfg e ∉ P.map PrevEntry.oldabs) →
      (P.map (destOf cfg)).Nodup →
      (execGo cfg fs P).2 = P.map (fun e => (e.oldabs, destOf cfg e)) ∧
      (∀ e ∈ P, fsLookup (execGo cfg fs P).1 (destOf cfg e) = fsLookup fs e.oldabs) ∧
      (∀ e ∈ P, fsLookup (execGo cfg fs P).1 e.oldabs = none) ∧
      (∀ x : String, x ∉ P.map PrevEntry.oldabs → (∀ e ∈ P, destOf cfg e ≠ x) →
        fsLookup (execGo cfg fs P).1 x = fsLookup fs x) := by
  intro P
  induction P with
  | nil =>
    intro fs _ _ _ _ _
    refine ⟨rfl, by simp, by simp, by simp [execGo]⟩
  | cons e rest ih =>
    intro fs hO hsub hbt hfresh hD
    have hbthead := hbt e (List.mem_cons_self _ _)
    obtain ⟨d, hd⟩ : ∃ d, baseTarget cfg e = some d :=
      Option.isSome_iff_exists.mp hbthead
    have hde : destOf cfg e = d := by simp [destOf, hd]
    have hfre : fsContains fs d = false := by
      have := (hfresh e (List.mem_cons_self _ _)).1
      rwa [hde] at this
    have hdnotold : d ∉ (e :: rest).map PrevEntry.oldabs := by
      have := (hfresh e (List.mem_cons_self _ _)).2
      rwa [hde] at this
    obtain ⟨v, hv⟩ : ∃ v, fsLookup fs e.oldabs = some v :=
      Option.isSome_iff_exists.mp (hsub e (List.mem_cons_self _ _))
    have htgt : conflictFreeTarget fs cfg.conflictSuffix d = d := by
      unfold conflictFreeTarget
      rw [if_neg (by simp [hfre])]
    have hstep : execGo cfg fs (e :: rest) =
        ((execGo cfg (fsInsert (fsErase fs e.oldabs) d v) rest).1,
          (e.oldabs, d) ::
            (execGo cfg (fsInsert (fsErase fs e.oldabs) d v) rest).2) := by
      simp only [execGo, hd, htgt, hv]
    set fs1 := fsInsert (fsErase fs e.oldabs) d v with hfs1
    have holdmem : e.oldabs ∈ (e :: rest).map PrevEntry.oldabs :=
      List.mem_map_of_mem PrevEntry.oldabs (List.mem_cons_self _ _)
    have hdne_eold : d ≠ e.oldabs := fun hc => hdnotold (hc ▸ holdmem)
    have hOhead : e.oldabs ∉ rest.map PrevEntry.oldabs ∧
        (rest.map PrevEntry.oldabs).Nodup := by
      simpa using hO
    have hDhead : destOf cfg e ∉ rest.map (destOf cfg) ∧
        (rest.map (destOf cfg)).Nodup := by
      simpa using hD
    have n2 : ∀ e' ∈ rest, e'.oldabs ≠ e.oldabs := by
      intro e' he' hc
      exact hOhead.1 (hc ▸ List.mem_map_of_mem PrevEntry.oldabs he')
    have n3 : ∀ e' ∈ rest, e'.oldabs ≠ d := by
      intro e' he' hc
      exact hdnotold (hc ▸ List.mem_map_of_mem PrevEntry.oldabs
        (List.mem_cons_of_mem e he'))
    have n4 : ∀ e' ∈ rest, destOf cfg e' ≠ d := by
      intro e' he' hc
      apply hDhead.1
      rw [hde]
      exact hc ▸ List.mem_map_of_mem (destOf cfg) he'
    have n5 : ∀ e' ∈ rest, destOf cfg e' ≠ e.oldabs := by
      intro e' he' hc
      exact (hfresh e' (List.mem_cons_of_mem e he')).2 (hc ▸ holdmem)
    have L2 : ∀ x : String, x ≠ d → x ≠ e.oldabs →
        fsLookup fs1 x = fsLookup fs x := by
      intro x hxd hxo
      rw [hfs1, fsLookup_insert_ne _ _ _ _ (fun hc => hxd hc.symm),
        fsLookup_erase_ne _ _ _ (fun hc => hxo hc.symm)]
    have L3 : fsLookup fs1 e.oldabs = none := by
      rw [hfs1, fsLookup_insert_ne _ _ _ _ hdne_eold, fsLookup_erase_self]
    have hsub' : ∀ e' ∈ rest, fsContains fs1 e'.oldabs = true := by
      intro e' he'
      have := hsub e' (List.mem_cons_of_mem e he')
      rwa [show fsContains fs1 e'.oldabs = fsContains fs e'.oldabs by
        unfold fsContains
        rw [L2 e'.oldabs (n3 e' he') (n2 e' he')]]
    have hbt' : ∀ e' ∈ rest, (baseTarget cfg e').isSome = true := by
      intro e' he'
      exact hbt e' (List.mem_cons_of_mem e he')
    have hfresh' : ∀ e' ∈ rest, fsContains fs1 (destOf cfg e') = false ∧
        destOf cfg e' ∉ rest.map PrevEntry.oldabs := by
      intro e' he'
      constructor
      · have := (hfresh e' (List.mem_cons_of_mem e he')).1
        rwa [show fsContains fs1 (destOf cfg e') = fsContains fs (destOf cfg e') by
          unfold fsContains
          rw [L2 _ (n4 e' he') (n5 e' he')]]
      · intro hmem
        exact (hfresh e' (List.mem_cons_of_mem e he')).2
          (mem_map_cons PrevEntry.oldabs e hmem)
    obtain ⟨ihlog, ihA2, ihA3, ihA4⟩ :=
      ih fs1 hOhead.2 hsub' hbt' hfresh' hDhead.2
    have hdnotrest : d ∉ rest.map PrevEntry.oldabs := by
      intro hmem
      exact hdnotold (mem_map_cons PrevEntry.oldabs e hmem)
    refine ⟨?_, ?_, ?_, ?_⟩
    · rw [hstep]
      dsimp only
      simp [List.map_cons, ihlog, hde]
    · intro e' he'
      rcases List.mem_cons.mp he' with rfl | hmem
      · rw [hstep]
        dsimp only
        rw [hde, ihA4 d hdnotrest n4, hfs1, fsLookup_insert_self, hv]
      · rw [hstep]
        dsimp only
        rw [ihA2 e' hmem, L2 e'.oldabs (n3 e' hmem) (n2 e' hmem)]
    · intro e' he'
      rcases List.mem_cons.mp he' with rfl | hmem
      · rw [hstep]
        dsimp only
        rw [ihA4 e'.oldabs hOhead.1 n5, L3]
      · rw [hstep]
        dsimp only
        exact ihA3 e' hmem
    · intro x hxold hxdest
      have hxold' : x ∉ rest.map PrevEntry.oldabs := by
        intro hmem
        exact hxold (mem_map_cons PrevEntry.oldabs e hmem)
      have hxdest' : ∀ e' ∈ rest, destOf cfg e' ≠ x := by
        intro e' he'
        exact hxdest e' (List.mem_cons_of_mem e he')
      have hxd : x ≠ d := by
        intro hc
        exact hxdest e (List.mem_cons_self _ _) (by rw [hde, hc])
      have hxo : x ≠ e.oldabs := by
        intro hc
        exact hxold (hc ▸ holdmem)
      rw [hstep]
      dsimp only
      rw [ihA4 x hxold' hxdest', L2 x hxd hxo]

/-- Characterisation of `_undo_task` on log rows whose original paths are
distinct, destinations distinct and disjoint from the originals, with every
destination present and every original absent: each row's original path
receives the file found at its destination, and other paths are untouched. -/
lemma undoGo_spec :
    ∀ (rows : List (String × String)) (fs : Fs),
      (rows.map Prod.fst).Nodup →
      (rows.map Prod.snd).Nodup →
      (∀ r ∈ rows, r.1 ∉ rows.map Prod.snd) →
      (∀ r ∈ rows, r.2 ≠ "" ∧ fsContains fs r.2 = true ∧ fsLookup fs r.1 = none) →
      (∀ r ∈ rows, fsLookup (undoGo fs rows).1 r.1 = fsLookup fs r.2) ∧
      (∀ x : String, x ∉ rows.map Prod.fst → x ∉ rows.map Prod.snd →
        fsLookup (undoGo fs rows).1 x = fsLookup fs x) := by
  intro rows
  induction rows with
  | nil =>
    intro fs _ _ _ _
    exact ⟨by simp, fun x _ _ => rfl⟩
  | cons r rest ih =>
    intro fs hF hS hdisj hok
    obtain ⟨o, d⟩ := r
    obtain ⟨hdne, hdcont, honone⟩ := hok (o, d) (List.mem_cons_self _ _)
    obtain ⟨v, hv⟩ : ∃ v, fsLookup fs d = some v :=
      Option.isSome_iff_exists.mp hdcont
    have hsource : (if d != "" && fsContains fs d then some d
        else if o != "" && fsContains fs o then some o else none) = some d := by
      rw [if_pos (by simp [hdne, hdcont])]
    have hstep : undoGo fs ((o, d) :: rest) =
        ((undoGo (fsInsert (fsErase fs d) o v) rest).1,
          (d, o) :: (undoGo (fsInsert (fsErase fs d) o v) rest).2) := by
      simp only [undoGo, hsource, hv]
    set fs1 := fsInsert (fsErase fs d) o v with hfs1
    have hFhead : o ∉ rest.map Prod.fst ∧ (rest.map Prod.fst).Nodup := by
      simpa using hF
    have hShead : d ∉ rest.map Prod.snd ∧ (rest.map Prod.snd).Nodup := by
      simpa using hS
    have hodmem : o ∉ ((o, d) :: rest).map Prod.snd :=
      hdisj (o, d) (List.mem_cons_self _ _)
    have hone_d : o ≠ d := by
      intro hc
      exact hodmem (by
        rw [hc]
        exact List.mem_map_of_mem Prod.snd (List.mem_cons_self _ _))
    have m2 : ∀ r' ∈ rest, r'.1 ≠ o := by
      intro r' hr' hc
      exact hFhead.1 (hc ▸ List.mem_map_of_mem Prod.fst hr')
    have m3 : ∀ r' ∈ rest, r'.1 ≠ d := by
      intro r' hr' hc
      exact hdisj r' (List.mem_cons_of_mem _ hr')
        (hc ▸ List.mem_map_of_mem Prod.snd (List.mem_cons_self _ _))
    have m4 : ∀ r' ∈ rest, r'.2 ≠ d := by
      intro r' hr' hc
      exact hShead.1 (hc ▸ List.mem_map_of_mem Prod.snd hr')
    have m5 : ∀ r' ∈ rest, r'.2 ≠ o := by
      intro r' hr' hc
      exact hodmem (hc ▸ mem_map_cons Prod.snd (o, d)
        (List.mem_map_of_mem Prod.snd hr'))
    have L2 : ∀ x : String, x ≠ o → x ≠ d → fsLookup fs1 x = fsLookup fs x := by
      intro x hxo hxd
      rw [hfs1, fsLookup_insert_ne _ _ _ _ (fun hc => hxo hc.symm),
        fsLookup_erase_ne _ _ _ (fun hc => hxd hc.symm)]
    have hok' : ∀ r' ∈ rest, r'.2 ≠ "" ∧ fsContains fs1 r'.2 = true ∧
        fsLookup fs1 r'.1 = none := by
      intro r' hr'
      obtain ⟨h1, h2, h3⟩ := hok r' (List.mem_cons_of_mem _ hr')
      refine ⟨h1, ?_, ?_⟩
      · rwa [show fsContains fs1 r'.2 = fsContains fs r'.2 by
          unfold fsContains
          rw [L2 r'.2 (m5 r' hr') (m4 r' hr')]]
      · rw [L2 r'.1 (m2 r' hr') (m3 r' hr')]
        exact h3
    have hdisj' : ∀ r' ∈ rest, r'.1 ∉ rest.map Prod.snd := by
      intro r' hr' hmem
      exact hdisj r' (List.mem_cons_of_mem _ hr') (mem_map_cons Prod.snd (o, d) hmem)
    obtain ⟨ihB1, ihB2⟩ := ih fs1 hFhead.2 hShead.2 hdisj' hok'
    refine ⟨?_, ?_⟩
    · intro r' hr'
      rcases List.mem_cons.mp hr' with rfl | hmem
      · rw [hstep]
        dsimp only
        rw [ihB2 o hFhead.1 (by
            intro hmem
            exact hodmem (mem_map_cons Prod.snd (o, d) hmem)),
          hfs1, fsLookup_insert_self, hv]
      · rw [hstep]
        dsimp only
        rw [ihB1 r' hmem, L2 r'.2 (m5 r' hmem) (m4 r' hmem)]
    · intro x hxf hxs
      have hxf' : x ∉ rest.map Prod.fst := by
        intro hmem
        exact hxf (mem_map_cons Prod.fst (o, d) hmem)
      have hxs' : x ∉ rest.map Prod.snd := by
        intro hmem
        exact hxs (mem_map_cons Prod.snd (o, d) hmem)
      have hxo : x ≠ o := by
        intro hc
        exact hxf (hc ▸ List.mem_map_of_mem Prod.fst (List.mem_cons_self _ _))
      have hxd : x ≠ d := by
        intro hc
        exact hxs (hc ▸ List.mem_map_of_mem Prod.snd (List.mem_cons_self _ _))
      rw [hstep]
      dsimp only
      rw [ihB2 x hxf' hxs', L2 x hxo hxd]

/-- C1 (amended): for every batch executed by the rename executor in which
no destination file is externally modified or deleted between rename and
undo **and** additionally every entry's resolved destination is defined,
initially absent from the filesystem, distinct from the other destinations,
nonempty, and distinct from every recorded original path, running the undo
engine on the emitted operation log moves every file recorded in the log
back to its original absolute path.  (Without the added disjointness of
destinations and original paths, the round trip fails:
`c1_roundtrip_counterexample`.) -/
theorem c1_roundtrip_amended (cfg : Config) (fs : Fs) (P : List PrevEntry)
    (h1 : (P.map PrevEntry.oldabs).Nodup)
    (h2 : ∀ e ∈ P, fsContains fs e.oldabs = true)
    (h3 : ∀ e ∈ P, (baseTarget cfg e).isSome = true)
    (h4 : ∀ e ∈ P, fsContains fs (destOf cfg e) = false ∧
      destOf cfg e ∉ P.map PrevEntry.oldabs ∧ destOf cfg e ≠ "")
    (h5 : (P.map (destOf cfg)).Nodup) :
    ∀ rec ∈ (execute_task cfg fs P).2,
      fsLookup (undo_task (execute_task cfg fs P).1 (execute_task cfg fs P).2).1
        rec.1 = fsLookup fs rec.1 := by
  obtain ⟨hlog, hA2, hA3, hA4⟩ := execGo_spec cfg P fs h1 h2 h3
    (fun e he => ⟨(h4 e he).1, (h4 e he).2.1⟩) h5
  intro rec hrec
  have hFst : (execGo cfg fs P).2.map Prod.fst = P.map PrevEntry.oldabs := by
    rw [hlog, List.map_map]
    rfl
  have hSnd : (execGo cfg fs P).2.map Prod.snd = P.map (destOf cfg) := by
    rw [hlog, List.map_map]
    rfl
  have hdisj : ∀ r ∈ (execGo cfg fs P).2,
      r.1 ∉ (execGo cfg fs P).2.map Prod.snd := by
    intro r hr hmem
    rw [hlog] at hr
    obtain ⟨e, he, rfl⟩ := List.mem_map.mp hr
    rw [hSnd] at hmem
    obtain ⟨e', he', heq⟩ := List.mem_map.mp hmem
    exact (h4 e' he').2.1 (heq ▸ List.mem_map_of_mem PrevEntry.oldabs he)
  have hok : ∀ r ∈ (execGo cfg fs P).2, r.2 ≠ "" ∧
      fsContains (execGo cfg fs P).1 r.2 = true ∧
      fsLookup (execGo cfg fs P).1 r.1 = none := by
    intro r hr
    rw [hlog] at hr
    obtain ⟨e, he, rfl⟩ := List.mem_map.mp hr
    refine ⟨(h4 e he).2.2, ?_, hA3 e he⟩
    unfold fsContains
    rw [hA2 e he]
    exact h2 e he
  obtain ⟨hB1, hB2⟩ := undoGo_spec (execGo cfg fs P).2 (execGo cfg fs P).1
    (by rw [hFst]; exact h1) (by rw [hSnd]; exact h5) hdisj hok
  have hrec' := hrec
  rw [show (execute_task cfg fs P).2 = (execGo cfg fs P).2 from rfl, hlog] at hrec'
  obtain ⟨e, he, rfl⟩ := List.mem_map.mp hrec'
  have := hB1 (e.oldabs, destOf cfg e) (by rw [hlog]; exact List.mem_map_of_mem _ he)
  calc fsLookup (undo_task (execute_task cfg fs P).1 (execute_task cfg fs P).2).1
        (e.oldabs, destOf cfg e).1
      = fsLookup (execGo cfg fs P).1 (destOf cfg e) := this
    _ = fsLookup fs e.oldabs := hA2 e he

/-- A 2-file batch reachable from the preview builder whose second
destination is the first file's original path (a down-shift rename):
`a2.mkv → a1.mkv`, `a3.mkv → a2.mkv`. -/
def cexCfg : Config := { title := "T", season := "1", pad := 1, offset := 0, includeTitle := true, template := "a\x7bep\x7d.\x7bext\x7d", sortMethod := "name", conflictSuffix := "_dup", moveSeasonFolder := false }

def cexFs : Fs := [("/d/a2.mkv", 0), ("/d/a3.mkv", 1)]

def cexPreview : List PrevEntry := previewList cexCfg ["/d/a2.mkv", "/d/a3.mkv"]

/-- Counterexample to C1 as stated: executing the preview
`a2.mkv → a1.mkv, a3.mkv → a2.mkv` and feeding the emitted log to the undo
engine — with no external modification in between — does **not** move every
file recorded in the log back to its original path: the undo of the first
row overwrites `/d/a2.mkv` (already restored state of the second file's
source) and the file logged at `/d/a2.mkv` ends up missing entirely. -/
theorem c1_roundtrip_counterexample :
    (execute_task cexCfg cexFs cexPreview).2 =
      [("/d/a2.mkv", "/d/a1.mkv"), ("/d/a3.mkv", "/d/a2.mkv")] ∧
    ¬ (∀ rec ∈ (execute_task cexCfg cexFs cexPreview).2,
        fsLookup (undo_task (execute_task cexCfg cexFs cexPreview).1
            (execute_task cexCfg cexFs cexPreview).2).1 rec.1 =
          fsLookup cexFs rec.1) ∧
    fsLookup (undo_task (execute_task cexCfg cexFs cexPreview).1
        (execute_task cexCfg cexFs cexPreview).2).1 "/d/a2.mkv" = none ∧
    fsLookup cexFs "/d/a2.mkv" = some 0 :=
  ⟨by decide, by decide, by decide, by decide⟩

def wCfg : Config := { title := "T", season := "1", pad := 1, offset := 0, includeTitle := true, template := "c\x7bep\x7d.\x7bext\x7d", sortMethod := "name", conflictSuffix := "_dup", moveSeasonFolder := false }

def wFs : Fs := [("/d/b1.mkv", 5), ("/d/b2.mkv", 6)]

def wPreview : List PrevEntry := previewList wCfg ["/d/b1.mkv", "/d/b2.mkv"]

theorem c1_roundtrip_amended_witness :
    fsLookup (undo_task (execute_task wCfg wFs wPreview).1
        (execute_task wCfg wFs wPreview).2).1 "/d/b1.mkv" =
      fsLookup wFs "/d/b1.mkv" :=
  c1_roundtrip_amended wCfg wFs wPreview (by decide) (by decide) (by decide)
    (by decide) (by decide) ("/d/b1.mkv", "/d/c1.mkv") (by decide)

end EpisodeRenamer
